import Mathlib

/-!
Verification development for the Discord chat-gateway bot with a recursive
tool-invocation loop (source: src/discord-bot-with-llm.ts, the variant with
recursive tool calling).  The JavaScript source is shallowly embedded:
argument objects become association lists, stateful platform calls become
pure functions over an explicit Discord state, fallible code returns Except,
and the network-facing completion client is a parameter of the loop model.
-/

namespace DiscordMCP

/-- A JSON-like value as supplied by the model in tool arguments.
Numbers are modelled as integers (no claim exercises fractional values). -/
inductive JVal where
  | jstr (s : String)
  | jnum (n : Int)
  | jbool (b : Bool)
  | jnull
  deriving DecidableEq, Repr

/-- A JavaScript object of tool arguments: ordered key/value pairs,
first occurrence of a key wins on lookup (JS objects have unique keys;
the model never relies on duplicates). -/
abbrev ArgMap := List (String × JVal)

/-- Property lookup (`obj[k]`): first pair whose key matches. -/
def argGet (m : ArgMap) (k : String) : Option JVal :=
  (m.find? (fun kv => kv.1 == k)).map (fun kv => kv.2)

/-- The `k in obj` test. -/
def argHas (m : ArgMap) (k : String) : Bool :=
  (argGet m k).isSome

/-- The `delete obj[k]` operation: removes every pair with that key. -/
def argDelete (m : ArgMap) (k : String) : ArgMap :=
  m.filter (fun kv => !(kv.1 == k))

/-- JavaScript truthiness of an argument value (absent, null, false, 0 and
the empty string are falsy). -/
def jsTruthy : Option JVal → Bool
  | some (JVal.jstr s) => !(s == "")
  | some (JVal.jnum n) => !(n == 0)
  | some (JVal.jbool b) => b
  | some JVal.jnull => false
  | none => false

/-- The static synonym table of `normalizeToolArgs` (source lines 311-324):
per tool, the list of (wrongName, correctName) pairs in source order. -/
def mappingsFor (toolName : String) : List (String × String) :=
  if toolName = "read_messages" then
    [("channel_name", "channel"), ("server_name", "server"),
     ("message_limit", "limit"), ("max_messages", "limit")]
  else if toolName = "send_message" then
    [("channel_name", "channel"), ("server_name", "server"),
     ("content", "message"), ("text", "message")]
  else []

/-- The `validParams` table of `normalizeToolArgs` (source lines 336-340);
`none` for tool names outside the table. -/
def validParamsFor (toolName : String) : Option (List String) :=
  if toolName = "read_messages" then some ["channel", "server", "limit"]
  else if toolName = "send_message" then some ["channel", "server", "message"]
  else if toolName = "list_servers" then some []
  else none

/-- One iteration of the renaming loop (source lines 327-332): when the
wrong name is a present key and the correct name is not, the value moves
from the wrong key to the correct one.  Assigning a fresh key appends it
at the end of the object, and the wrong key is then deleted. -/
def renameStep (m : ArgMap) (p : String × String) : ArgMap :=
  match argGet m p.1 with
  | some v => if argHas m p.2 then m else argDelete m p.1 ++ [(p.2, v)]
  | none => m

/-- Model of `normalizeToolArgs` (source lines 307-352): rename synonym keys in table
order, then drop every key outside the valid-parameter set of the tool
(tools absent from the table keep all keys). -/
def normalizeToolArgs (toolName : String) (args : ArgMap) : ArgMap :=
  let renamed := (mappingsFor toolName).foldl renameStep args
  match validParamsFor toolName with
  | some ps => renamed.filter (fun kv => ps.contains kv.1)
  | none => renamed

/-- A Discord message as far as the bot reads it: author tag, text content,
ISO timestamp and attachment URLs. -/
structure DMessage where
  authorTag : String
  content : String
  timestamp : String
  attachments : List String
  deriving DecidableEq, Repr

/-- A channel in a guild.  `messages` is the channel history in
chronological order, oldest first. -/
structure DChannel where
  id : String
  name : String
  isText : Bool
  messages : List DMessage
  deriving DecidableEq, Repr

/-- A guild (server) the bot is connected to. -/
structure DGuild where
  id : String
  name : String
  memberCount : Nat
  channels : List DChannel
  deriving DecidableEq, Repr

/-- The read-only platform state behind `client.guilds.cache` and
`client.channels.fetch`. -/
structure DiscordState where
  guilds : List DGuild
  deriving DecidableEq, Repr

/-- Lowercasing of one character, as `toLowerCase` does (ASCII range, which covers the
identifiers the source compares). -/
def lowerChar (c : Char) : Char :=
  if 'A' ≤ c ∧ c ≤ 'Z' then Char.ofNat (c.toNat + 32) else c

/-- Model of `String.prototype.toLowerCase`. -/
def lowerStr (s : String) : String := String.mk (s.data.map lowerChar)

/-- Model of `client.channels.fetch(id)`: global lookup of a channel by id, paired
with its owning guild; failure (unknown id) is `none`. -/
def fetchChannelById (st : DiscordState) (cid : String) : Option (DGuild × DChannel) :=
  st.guilds.findSome? (fun g => (g.channels.find? (fun c => c.id == cid)).map (fun c => (g, c)))

/-- Model of `findGuild` (source lines 247-273).  With no identifier: the single
cached guild, or an error reporting the guild count.  With an identifier:
fetch by id; on fetch failure, case-insensitive name search (zero matches
is not-found, several is a multiple-match error listing candidates). -/
def findGuild (st : DiscordState) (guildIdentifier : Option String) : Except String DGuild :=
  match guildIdentifier with
  | none =>
    match st.guilds with
    | [g] => Except.ok g
    | gs => Except.error ("Bot is in " ++ toString gs.length ++
        " servers. Please specify server name or ID.")
  | some gid =>
    match st.guilds.find? (fun g => g.id == gid) with
    | some g => Except.ok g
    | none =>
      let named := st.guilds.filter (fun g => lowerStr g.name == lowerStr gid)
      match named with
      | [] => Except.error ("Server \"" ++ gid ++ "\" not found.")
      | [g] => Except.ok g
      | gs => Except.error ("Multiple servers found with name \"" ++ gid ++ "\": " ++
          String.intercalate ", " (gs.map (fun g => g.name ++ " (ID: " ++ g.id ++ ")")))

/-- The `/^#/` strip in `findChannel`: remove one leading hash. -/
def stripHash (s : String) : String :=
  match s.data with
  | '#' :: rest => String.mk rest
  | _ => s

/-- Model of `findChannel` (source lines 276-304).  Resolve the guild, strip a
leading hash, try a global fetch by channel id (a fetched channel that is
not a text channel of the resolved guild falls through to the final
not-found error), else search the guild cache by case-insensitive name. -/
def findChannel (st : DiscordState) (channelIdentifier : String)
    (guildIdentifier : Option String) : Except String (DChannel × DGuild) :=
  match findGuild st guildIdentifier with
  | Except.error e => Except.error e
  | Except.ok guild =>
    let cleanChannelName := stripHash channelIdentifier
    match fetchChannelById st cleanChannelName with
    | some (g, ch) =>
      if ch.isText && (g.id == guild.id) then Except.ok (ch, guild)
      else Except.error ("Channel \"" ++ channelIdentifier ++ "\" not found")
    | none =>
      let named := guild.channels.filter
        (fun c => c.isText && (lowerStr c.name == lowerStr cleanChannelName))
      match named with
      | [] => Except.error ("Channel \"" ++ channelIdentifier ++ "\" not found in server \"" ++
          guild.name ++ "\".")
      | [c] => Except.ok (c, guild)
      | cs => Except.error ("Multiple channels found with name \"" ++ channelIdentifier ++
          "\": " ++ String.intercalate ", " (cs.map (fun c => "#" ++ c.name ++ " (" ++ c.id ++ ")")))

/-- The fetch-count computation of the read operation (source line 379):
`Math.min(limit, 100)`.  Only an upper clamp; no lower bound is applied. -/
def fetchLimit (limit : Int) : Int := min limit 100

/-- Platform fetch of channel messages with a count: the platform returns the `k`
most recent messages, newest first.  A non-positive count is modelled as an
empty fetch (the real REST API rejects it; either way the code applies no
lower clamp before the call). -/
def fetchMessages (ch : DChannel) (k : Int) : List DMessage :=
  (ch.messages.reverse).take k.toNat

/-- Serialization of one formatted message record (author, content,
timestamp, attachments).  Models the textual output of JSON.stringify;
field content is faithful, the exact punctuation of the external
serializer is abstracted. -/
def renderMsg (m : DMessage) : String :=
  "(author: " ++ m.authorTag ++ ", content: " ++ m.content ++
  ", timestamp: " ++ m.timestamp ++
  ", attachments: [" ++ String.intercalate ", " m.attachments ++ "])"

/-- Serialization of the formatted message list. -/
def renderMsgs (ms : List DMessage) : String :=
  "[" ++ String.intercalate ", " (ms.map renderMsg) ++ "]"

/-- Serialization of the list_servers summary (source lines 362-372):
name, id, memberCount and the first 20 text-channel names per guild.
Models JSON.stringify output textually. -/
def renderServers (gs : List DGuild) : String :=
  "[" ++ String.intercalate ", " (gs.map (fun g =>
    "(name: " ++ g.name ++ ", id: " ++ g.id ++
    ", memberCount: " ++ toString g.memberCount ++
    ", channels: [" ++ String.intercalate ", "
      (((g.channels.filter (fun c => c.isText)).map (fun c => "#" ++ c.name)).take 20) ++
    "])")) ++ "]"

/-- Identifier of a freshly delivered message (`sent.id`), generated by the
platform; abstracted to a constant. -/
def sentMessageId : String := "0"

/-- Extraction of the optional server argument: only a string value counts
as a supplied identifier (no claim exercises non-string server values). -/
def serverArg (m : ArgMap) : Option String :=
  match argGet m "server" with
  | some (JVal.jstr s) => some s
  | _ => none

/-- The body of `executeDiscordTool` before its catch-all (source lines
356-402): normalize the arguments, then dispatch on the tool name; the
default branch throws Unknown tool.  Inner `Except.error` values model
thrown exceptions (resolution errors, platform rejections, JS type
errors on non-string required arguments). -/
def executeDiscordToolE (st : DiscordState) (toolName : String) (args : ArgMap) :
    Except String String :=
  let nArgs := normalizeToolArgs toolName args
  if toolName = "list_servers" then
    Except.ok (renderServers st.guilds)
  else if toolName = "read_messages" then
    match argGet nArgs "channel" with
    | some (JVal.jstr channelIdentifier) =>
      match findChannel st channelIdentifier (serverArg nArgs) with
      | Except.error e => Except.error e
      | Except.ok (ch, guild) =>
        let limit : Int := match argGet nArgs "limit" with
          | some (JVal.jnum n) => n
          | _ => 50
        let fetched := fetchMessages ch (fetchLimit limit)
        let formattedMessages := fetched.reverse
        Except.ok ("Messages from #" ++ ch.name ++ " in " ++ guild.name ++ ":\n" ++
          renderMsgs formattedMessages)
    | _ => Except.error "channelIdentifier.replace is not a function"
  else if toolName = "send_message" then
    match argGet nArgs "channel" with
    | some (JVal.jstr channelIdentifier) =>
      match findChannel st channelIdentifier (serverArg nArgs) with
      | Except.error e => Except.error e
      | Except.ok (ch, guild) =>
        match argGet nArgs "message" with
        | some (JVal.jstr _) =>
          Except.ok ("Message sent successfully to #" ++ ch.name ++ " in " ++ guild.name ++
            ". Message ID: " ++ sentMessageId)
        | _ => Except.error "Cannot send an empty message"
    | _ => Except.error "channelIdentifier.replace is not a function"
  else
    Except.error ("Unknown tool: " ++ toolName)

/-- Model of `executeDiscordTool` (source lines 355-406): the catch-all converts any
thrown failure into a result string prefixed with Error executing tool. -/
def executeDiscordTool (st : DiscordState) (toolName : String) (args : ArgMap) : String :=
  match executeDiscordToolE st toolName args with
  | Except.ok s => s
  | Except.error e => "Error executing tool: " ++ e

/-- JavaScript whitespace for trim purposes (the characters the source
texts can contain). -/
def wsChar (c : Char) : Bool :=
  c = ' ' || c = '\n' || c = '\t' || c = '\r'

/-- Model of `String.prototype.trim` on a character list: drop whitespace from both
ends. -/
def jsTrimL (l : List Char) : List Char :=
  ((l.dropWhile wsChar).reverse.dropWhile wsChar).reverse

/-- The trim operation on strings. -/
def jsTrimS (s : String) : String := String.mk (jsTrimL s.data)

/-- Whether `pat` occurs starting at the head of `l`. -/
def startsWithL : List Char → List Char → Bool
  | [], _ => true
  | _ :: _, [] => false
  | p :: ps, c :: cs => p == c && startsWithL ps cs

/-- Model of `String.prototype.includes`: substring occurrence test. -/
def containsSubL (pat : List Char) : List Char → Bool
  | [] => startsWithL pat []
  | c :: cs => startsWithL pat (c :: cs) || containsSubL pat cs

/-- The includes test on strings. -/
def strContains (s pat : String) : Bool := containsSubL pat.data s.data

/-- The JS `a || b` chain on possibly-absent strings: an absent or empty
string falls through to the alternative. -/
def jsOrStr (a : Option String) (b : String) : String :=
  match a with
  | some s => if s = "" then b else s
  | none => b

/-- One tool call of an assistant message: correlation id, function name
and the raw JSON argument payload (an untrusted string). -/
structure ToolCall where
  id : String
  name : String
  arguments : String
  deriving DecidableEq, Repr

/-- An assistant message as returned by the completion endpoint: textual
content, an optional secondary reasoning channel, and tool calls (absent
and empty tool_calls coincide in the model, as the source treats them
identically). -/
structure AssistantMessage where
  content : Option String
  reasoning : Option String
  tool_calls : List ToolCall
  deriving DecidableEq, Repr

/-- A conversation turn of the growing message sequence. -/
inductive Turn where
  | plain (role : String) (content : String)
  | assistant (m : AssistantMessage)
  | tool (tool_call_id : String) (content : String)
  deriving DecidableEq, Repr

/-- A transport failure of the completion endpoint (non-success status or
unreachable endpoint); carries the diagnostic text. -/
abbrev TransportError := String

/-- The environment of one loop invocation: the Discord state, the
completion endpoint (a function of the full message sequence), and the
external JSON/regex library functions the loop calls.  `jsonParse` returns
`none` when JSON.parse throws (or yields an unusable non-object);
`cleanup` models the reasoning-artifact regex replacement of source line
456 followed by nothing (trim is applied separately). -/
structure LoopEnv where
  discord : DiscordState
  llm : List Turn → Except TransportError AssistantMessage
  jsonParse : String → Option ArgMap
  jsonStringify : ArgMap → String
  cleanup : String → String

/-- The `MAX_DEPTH` constant (source line 414). -/
def MAX_DEPTH : Nat := 5

/-- The depth-bound return (source line 418):
`assistantMessage.reasoning || assistantMessage.content || notice`. -/
def depthBoundText (am : AssistantMessage) : String :=
  jsOrStr am.reasoning (jsOrStr am.content "Maximum tool calling depth reached.")

/-- The terminal no-tool-calls return (source lines 454-464): strip
reasoning artifacts and trim when content is truthy, then fall back to the
reasoning channel, then to a fixed acknowledgement. -/
def terminalText (env : LoopEnv) (am : AssistantMessage) : String :=
  let content := match am.content with
    | some c => if c = "" then some c else some (jsTrimS (env.cleanup c))
    | none => none
  match content with
  | some c => if c = "" then jsOrStr am.reasoning "I processed your request." else c
  | none => jsOrStr am.reasoning "I processed your request."

/-- The id of the synthetic tool call (source line 437 forms
`synthetic_` + Date.now(); the clock suffix is abstracted). -/
def syntheticId : String := "synthetic_0"

/-- The JSON-sniffing recovery (source lines 421-452): when a message has
no tool calls but its content is truthy, starts (after trim) with an
opening brace and mentions a channel key, parse it and synthesize a single
tool call — send_message when the parsed object has a truthy message
value, read_messages otherwise.  On parse failure the message is kept
unchanged.  The source re-enters the loop at the same depth with the
synthetic message, which is equivalent to substituting it here since the
depth test was already passed and the synthetic message always carries a
tool call. -/
def sniffSubstitute (env : LoopEnv) (am : AssistantMessage) : AssistantMessage :=
  if am.tool_calls ≠ [] then am
  else
    match am.content with
    | some c =>
      if c ≠ "" && startsWithL [Char.ofNat 123] (jsTrimL c.data) &&
          strContains c "\"channel\"" then
        match env.jsonParse c with
        | some args =>
          let toolName := if jsTruthy (argGet args "message") then "send_message"
                          else "read_messages"
          AssistantMessage.mk none none
            [ToolCall.mk syntheticId toolName (env.jsonStringify args)]
        | none => am
      else am
    | none => am

/-- Argument decoding for one tool call (source lines 475-483): empty or
all-whitespace payloads keep the empty map, a parse failure is caught and
also yields the empty map. -/
def decodeToolArgs (env : LoopEnv) (raw : String) : ArgMap :=
  if raw ≠ "" && jsTrimS raw ≠ "" then (env.jsonParse raw).getD [] else []

/-- The tool-execution phase of one round (source lines 470-493): each call
is decoded, executed, and yields a tool turn tagged with the calls
correlation id, in request order. -/
def roundToolResults (env : LoopEnv) (calls : List ToolCall) : List Turn :=
  calls.map (fun tc =>
    Turn.tool tc.id (executeDiscordTool env.discord tc.name (decodeToolArgs env tc.arguments)))

/-- The recursion of `executeToolsRecursively`, structured on explicit fuel
so that it computes; the wrapper below instantiates the fuel with
`MAX_DEPTH - depth`, which makes the fuel-exhausted case coincide with the
depth test of source line 416. -/
def goLoop (env : LoopEnv) : Nat → List Turn → AssistantMessage → Nat →
    Except TransportError String
  | 0, _, am, _ => Except.ok (depthBoundText am)
  | fuel + 1, messages, am, depth =>
    if depth ≥ MAX_DEPTH then Except.ok (depthBoundText am)
    else
      let am' := sniffSubstitute env am
      if am'.tool_calls = [] then Except.ok (terminalText env am)
      else
        let toolResults := roundToolResults env am'.tool_calls
        let newMessages := messages ++ [Turn.assistant am'] ++ toolResults
        match env.llm newMessages with
        | Except.error e => Except.error e
        | Except.ok followUp => goLoop env fuel newMessages followUp (depth + 1)

/-- Model of `executeToolsRecursively` (source lines 409-530): terminate with the
best available text at the depth bound; otherwise apply the JSON-sniffing
recovery, return the cleaned terminal text when no tool calls remain, else
execute every tool call in order, append the assistant turn and the tool
results, issue the follow-up completion (a transport failure propagates)
and recurse one level deeper. -/
def executeToolsRecursively (env : LoopEnv) (messages : List Turn)
    (assistantMessage : AssistantMessage) (depth : Nat) : Except TransportError String :=
  goLoop env (MAX_DEPTH - depth) messages assistantMessage depth

/-- Round counter companion of `goLoop`: how many tool-execution rounds the
loop performs. -/
def goRounds (env : LoopEnv) : Nat → List Turn → AssistantMessage → Nat → Nat
  | 0, _, _, _ => 0
  | fuel + 1, messages, am, depth =>
    if depth ≥ MAX_DEPTH then 0
    else
      let am' := sniffSubstitute env am
      if am'.tool_calls = [] then 0
      else
        let toolResults := roundToolResults env am'.tool_calls
        let newMessages := messages ++ [Turn.assistant am'] ++ toolResults
        match env.llm newMessages with
        | Except.error _ => 1
        | Except.ok followUp => 1 + goRounds env fuel newMessages followUp (depth + 1)

/-- Number of tool-execution rounds of one loop invocation. -/
def loopRounds (env : LoopEnv) (messages : List Turn)
    (assistantMessage : AssistantMessage) (depth : Nat) : Nat :=
  goRounds env (MAX_DEPTH - depth) messages assistantMessage depth

/-- The `MAX_LENGTH` constant of the message splitter (source line 631). -/
def MAX_LENGTH : Nat := 1950

/-- Helper of `lastIndexOfFrom`: scan `l` (whose head sits at index `i` of
the full text), remembering the last index `≤ fromIdx` where `pat`
occurs. -/
def lastIndexOfAux (pat : List Char) (fromIdx : Nat) :
    List Char → Nat → Option Nat → Option Nat
  | [], _, best => best
  | c :: cs, i, best =>
    let best' := if i ≤ fromIdx && startsWithL pat (c :: cs) then some i else best
    lastIndexOfAux pat fromIdx cs (i + 1) best'

/-- Model of `String.prototype.lastIndexOf(pat, fromIdx)`: the largest index
`≤ fromIdx` at which `pat` begins in `l`, `none` when there is no such
occurrence (JS returns -1). -/
def lastIndexOfFrom (pat l : List Char) (fromIdx : Nat) : Option Nat :=
  lastIndexOfAux pat fromIdx l 0 none

/-- Fallback line-break branch of the split-point choice (source lines
659-663): a line break strictly beyond 0.7 of the window (the float
threshold 1950*0.7 evaluates to 1365 exactly), else a hard cut at
`MAX_LENGTH`. -/
def lineOrHard (remaining : List Char) : Nat :=
  match lastIndexOfFrom ['\n'] remaining MAX_LENGTH with
  | some lb => if 1365 < lb then lb else MAX_LENGTH
  | none => MAX_LENGTH

/-- Sentence-terminator branch of the split-point choice (source lines
655-664): a period-space strictly beyond 0.7 of the window splits just
after the period, else fall back to the line-break branch. -/
def sentenceOr (remaining : List Char) : Nat :=
  match lastIndexOfFrom ['.', ' '] remaining MAX_LENGTH with
  | some s => if 1365 < s then s + 1 else lineOrHard remaining
  | none => lineOrHard remaining

/-- Split-point choice of one iteration of the splitting loop (source lines
648-664): prefer a paragraph break strictly beyond half the window (the
float threshold 1950*0.5 evaluates to 975 exactly), else the sentence- and
line-break fallbacks. -/
def chooseSplit (remaining : List Char) : Nat :=
  match lastIndexOfFrom ['\n', '\n'] remaining MAX_LENGTH with
  | some p => if 975 < p then p else sentenceOr remaining
  | none => sentenceOr remaining

/-- Body of the splitting loop, on explicit fuel (any fuel at least the
text length computes the loop; the split point is always positive, so the
remainder shrinks by at least one character per iteration). -/
def splitGo : Nat → List Char → List (List Char)
  | _, [] => []
  | 0, r => [r]
  | fuel + 1, r =>
    if r.length ≤ MAX_LENGTH then [r]
    else
      let sp := chooseSplit r
      jsTrimL (r.take sp) :: splitGo fuel (jsTrimL (r.drop sp))

/-- The splitting loop (source lines 639-668): while text remains, emit it
whole once it fits, otherwise trim the window up to the chosen split point
into a part and continue with the trimmed remainder. -/
def splitParts (remaining : List Char) : List (List Char) :=
  splitGo remaining.length remaining

/-- The part header of the delivery loop (source line 672). -/
def partMarker (i n : Nat) : List Char :=
  ("**[Part " ++ toString i ++ "/" ++ toString n ++ "]**\n\n").data

/-- Helper of `renderedParts`: prefix each part with its header (`n` is the
total number of parts, `i` the zero-based index of the head). -/
def renderedAux (n : Nat) : Nat → List (List Char) → List (List Char)
  | _, [] => []
  | i, p :: ps => ((if 1 < n then partMarker (i + 1) n else []) ++ p) :: renderedAux n (i + 1) ps

/-- The delivered messages of the delivery loop (source lines 671-678):
each part is prefixed with a Part i/N header exactly when more than one
part was produced. -/
def renderedParts (parts : List (List Char)) : List (List Char) :=
  renderedAux parts.length 0 parts

/-- All characters of `l` are whitespace. -/
def allWs (l : List Char) : Bool := l.all wsChar

/-- The predicate `reconstructs parts text`: the original text is the parts in order,
interleaved with the whitespace runs that trimming removed at each
boundary. -/
def reconstructs : List (List Char) → List Char → Prop
  | [], t => allWs t = true
  | p :: ps, t => ∃ w rest, allWs w = true ∧ t = w ++ p ++ rest ∧ reconstructs ps rest

/-- First concrete guild of the two-server scenario. -/
def c2guildA : DGuild := ⟨"1", "Alpha", 2, [⟨"10", "general", true, []⟩]⟩

/-- Second concrete guild of the two-server scenario. -/
def c2guildB : DGuild := ⟨"2", "Beta", 3, [⟨"20", "general", true, []⟩]⟩

/-- The two-server state of the C2 scenario. -/
def c2state : DiscordState := ⟨[c2guildA, c2guildB]⟩

/-- Concrete channel with one stored message, for the C3 scenario. -/
def c3chan : DChannel :=
  ⟨"10", "general", true, [⟨"alice", "hello", "2024-01-01T00:00:00.000Z", []⟩]⟩

/-- Concrete guild holding `c3chan`. -/
def c3guild : DGuild := ⟨"1", "Alpha", 2, [c3chan]⟩

/-- Concrete one-guild state for the C3 scenario. -/
def c3state : DiscordState := ⟨[c3guild]⟩

/-- The correlation id carried by a turn (empty for non-tool turns). -/
def turnId : Turn → String
  | Turn.tool cid _ => cid
  | _ => ""

/-- Concrete call list of the C8 witness: one call with an undecodable
payload. -/
def c8calls : List ToolCall := [⟨"call_1", "read_messages", "not json"⟩]

/-- Concrete environment of the C8 witness: its JSON parser always
fails. -/
def c8env : LoopEnv :=
  ⟨⟨[]⟩, fun _ => Except.error "unreachable", fun _ => none, fun _ => "", fun s => s⟩

/-- Concrete two-call round of the C9 witness. -/
def c9calls : List ToolCall :=
  [⟨"call_a", "list_servers", ""⟩, ⟨"call_b", "read_messages", "\x7b\x7d"⟩]

/-- The always-tool-calling assistant message of the C1 scenario, carrying
both textual content and a reasoning channel. -/
def c1msg : AssistantMessage :=
  ⟨some "CONTENT", some "REASONING", [⟨"id1", "list_servers", ""⟩]⟩

/-- The C1 environment: the completion endpoint always answers with
`c1msg`. -/
def c1env : LoopEnv :=
  ⟨⟨[]⟩, fun _ => Except.ok c1msg, fun _ => none, fun _ => "", fun s => s⟩

/-- Parsed arguments of the C7 concrete scenario. -/
def c7args : ArgMap := [("channel", JVal.jstr "general")]

/-- Raw JSON text of the C7 concrete scenario. -/
def c7text : String := "\x7b\"channel\":\"general\"\x7d"

/-- Environment of the C7 scenario: the JSON library parses `c7text` to
`c7args` and re-serializes it back; the follow-up completion answers with
a plain text message. -/
def c7env : LoopEnv :=
  ⟨⟨[]⟩, fun _ => Except.ok (⟨some "done", none, []⟩ : AssistantMessage),
   fun s => if s = c7text then some c7args else none,
   fun m => if m = c7args then c7text else "", fun s => s⟩

/-- Parsed arguments of the C7 counterexample: a message key is present
but holds the empty string, which is falsy. -/
def c7args2 : ArgMap := [("channel", JVal.jstr "general"), ("message", JVal.jstr "")]

/-- Raw JSON text of the C7 counterexample. -/
def c7text2 : String := "\x7b\"channel\":\"general\",\"message\":\"\"\x7d"

/-- Environment of the C7 counterexample. -/
def c7env2 : LoopEnv :=
  ⟨⟨[]⟩, fun _ => Except.ok (⟨some "done", none, []⟩ : AssistantMessage),
   fun s => if s = c7text2 then some c7args2 else none,
   fun m => if m = c7args2 then c7text2 else "", fun s => s⟩

/-- The oversized text of the C6 counterexample: 1950 letters, a sentence
terminator exactly at the window boundary, then a short tail. -/
def c6text : List Char :=
  List.replicate 1950 'a' ++ (['.', ' '] ++ List.replicate 10 'b')

/-- An index reported by `lastIndexOfAux` never exceeds the from-index. -/
theorem lastIndexOfAux_le (pat : List Char) (fromIdx : Nat) :
    ∀ (l : List Char) (i : Nat) (best : Option Nat),
      (∀ j, best = some j → j ≤ fromIdx) →
      ∀ j, lastIndexOfAux pat fromIdx l i best = some j → j ≤ fromIdx
  | [], _, _, h, j, hj => h j hj
  | c :: cs, i, best, h, j, hj => by
    simp only [lastIndexOfAux] at hj
    refine lastIndexOfAux_le pat fromIdx cs (i + 1) _ ?_ j hj
    intro k hk
    by_cases hcond : (i ≤ fromIdx && startsWithL pat (c :: cs)) = true
    · rw [if_pos hcond] at hk
      cases hk
      exact of_decide_eq_true ((Bool.and_eq_true _ _).mp hcond).1
    · rw [if_neg hcond] at hk
      exact h k hk

/-- An index reported by `lastIndexOfFrom` never exceeds the from-index. -/
theorem lastIndexOfFrom_le (pat l : List Char) (fromIdx j : Nat)
    (h : lastIndexOfFrom pat l fromIdx = some j) : j ≤ fromIdx :=
  lastIndexOfAux_le pat fromIdx l 0 none (by intro j hj; cases hj) j h

theorem lineOrHard_pos (r : List Char) : 0 < lineOrHard r := by
  unfold lineOrHard
  split
  · split
    · omega
    · decide
  · decide

theorem lineOrHard_le (r : List Char) : lineOrHard r ≤ MAX_LENGTH := by
  unfold lineOrHard
  split
  · rename_i lb heq
    have := lastIndexOfFrom_le _ _ _ _ heq
    split <;> omega
  · omega

theorem sentenceOr_pos (r : List Char) : 0 < sentenceOr r := by
  unfold sentenceOr
  split
  · split
    · omega
    · exact lineOrHard_pos r
  · exact lineOrHard_pos r

theorem sentenceOr_le (r : List Char) : sentenceOr r ≤ MAX_LENGTH + 1 := by
  have hl := lineOrHard_le r
  unfold sentenceOr
  split
  · rename_i s heq
    have := lastIndexOfFrom_le _ _ _ _ heq
    split <;> omega
  · omega

/-- Every branch of `chooseSplit` is positive. -/
theorem chooseSplit_pos (r : List Char) : 0 < chooseSplit r := by
  unfold chooseSplit
  split
  · split
    · omega
    · exact sentenceOr_pos r
  · exact sentenceOr_pos r

/-- Every branch of `chooseSplit` is at most `MAX_LENGTH + 1` (only the
sentence branch adds one past the found index, which is itself at most
`MAX_LENGTH`). -/
theorem chooseSplit_le (r : List Char) : chooseSplit r ≤ MAX_LENGTH + 1 := by
  have hs := sentenceOr_le r
  unfold chooseSplit
  split
  · rename_i p heq
    have := lastIndexOfFrom_le _ _ _ _ heq
    split <;> omega
  · omega

/-- Trimming never lengthens a list. -/
theorem jsTrimL_length_le (l : List Char) : (jsTrimL l).length ≤ l.length := by
  unfold jsTrimL
  calc ((l.dropWhile wsChar).reverse.dropWhile wsChar).reverse.length
      = ((l.dropWhile wsChar).reverse.dropWhile wsChar).length := by
        rw [List.length_reverse]
    _ ≤ (l.dropWhile wsChar).reverse.length :=
        (List.dropWhile_sublist _).length_le
    _ = (l.dropWhile wsChar).length := by rw [List.length_reverse]
    _ ≤ l.length := (List.dropWhile_sublist _).length_le

/-- With enough fuel, `splitGo` satisfies the loop equation: extra fuel is
irrelevant, which lets proofs proceed by induction on the fuel. -/
theorem splitGo_fuel_irrel :
    ∀ (fuel₁ fuel₂ : Nat) (r : List Char), r.length ≤ fuel₁ → r.length ≤ fuel₂ →
      splitGo fuel₁ r = splitGo fuel₂ r
  | f₁, f₂, [], _, _ => by cases f₁ <;> cases f₂ <;> rfl
  | 0, _, r :: rs, h₁, _ => by simp at h₁
  | _ + 1, 0, r :: rs, _, h₂ => by simp at h₂
  | fuel₁ + 1, fuel₂ + 1, c :: cs, h₁, h₂ => by
    simp only [splitGo]
    split
    · rfl
    · rename_i hlen
      have hsp := chooseSplit_pos (c :: cs)
      have htr := jsTrimL_length_le ((c :: cs).drop (chooseSplit (c :: cs)))
      have hdr : ((c :: cs).drop (chooseSplit (c :: cs))).length =
          (c :: cs).length - chooseSplit (c :: cs) := List.length_drop _ _
      simp only [List.length_cons] at h₁ h₂ hdr
      have hlen' : (jsTrimL ((c :: cs).drop (chooseSplit (c :: cs)))).length ≤ fuel₁ := by
        omega
      have hlen'' : (jsTrimL ((c :: cs).drop (chooseSplit (c :: cs)))).length ≤ fuel₂ := by
        omega
      rw [splitGo_fuel_irrel fuel₁ fuel₂ _ hlen' hlen'']

/-- The unfolding equation of `splitParts` for nonempty oversized text. -/
theorem splitParts_eq_cons (r : List Char) (hne : r ≠ []) (hlen : MAX_LENGTH < r.length) :
    splitParts r =
      jsTrimL (r.take (chooseSplit r)) :: splitParts (jsTrimL (r.drop (chooseSplit r))) := by
  obtain ⟨c, cs, rfl⟩ : ∃ c cs, r = c :: cs := by
    cases r with
    | nil => exact absurd rfl hne
    | cons c cs => exact ⟨c, cs, rfl⟩
  show splitGo (c :: cs).length (c :: cs) = _
  have : (c :: cs).length = cs.length + 1 := rfl
  rw [this]
  simp only [splitGo]
  rw [if_neg (by simp only [List.length_cons] at hlen ⊢; omega)]
  have hsp := chooseSplit_pos (c :: cs)
  have htr := jsTrimL_length_le ((c :: cs).drop (chooseSplit (c :: cs)))
  have hdr : ((c :: cs).drop (chooseSplit (c :: cs))).length =
      (c :: cs).length - chooseSplit (c :: cs) := List.length_drop _ _
  simp only [List.length_cons] at hdr
  rw [splitGo_fuel_irrel cs.length (jsTrimL ((c :: cs).drop (chooseSplit (c :: cs)))).length _
    (by omega) (Nat.le_refl _)]
  rfl

/-- The unfolding equation of `splitParts` for text that fits. -/
theorem splitParts_eq_single (r : List Char) (hne : r ≠ []) (hlen : r.length ≤ MAX_LENGTH) :
    splitParts r = [r] := by
  obtain ⟨c, cs, rfl⟩ : ∃ c cs, r = c :: cs := by
    cases r with
    | nil => exact absurd rfl hne
    | cons c cs => exact ⟨c, cs, rfl⟩
  show splitGo (c :: cs).length (c :: cs) = _
  have : (c :: cs).length = cs.length + 1 := rfl
  rw [this]
  simp only [splitGo]
  rw [if_pos (by simpa using hlen)]

/-! ### Association-list lemmas for the argument normalizer -/

theorem argGet_append (l₁ l₂ : ArgMap) (k : String) :
    argGet (l₁ ++ l₂) k = (argGet l₁ k).or (argGet l₂ k) := by
  unfold argGet
  rw [List.find?_append]
  cases List.find? (fun kv => kv.1 == k) l₁ <;> simp

theorem argGet_filter_of_true (q : String × JVal → Bool) (m : ArgMap) (k : String)
    (hq : ∀ v, q (k, v) = true) : argGet (m.filter q) k = argGet m k := by
  induction m with
  | nil => rfl
  | cons kv t ih =>
    obtain ⟨k1, v1⟩ := kv
    by_cases hk : k1 = k
    · subst hk
      rw [List.filter_cons, if_pos (hq v1)]
      simp [argGet]
    · rw [List.filter_cons]
      have hne : (k1 == k) = false := by simpa using hk
      by_cases hq2 : q (k1, v1) = true
      · rw [if_pos hq2]
        simp only [argGet, List.find?_cons, hne]
        exact ih
      · rw [if_neg hq2]
        simp only [argGet, List.find?_cons, hne]
        exact ih

theorem argGet_filter_of_false (q : String × JVal → Bool) (m : ArgMap) (k : String)
    (hq : ∀ v, q (k, v) = false) : argGet (m.filter q) k = none := by
  induction m with
  | nil => rfl
  | cons kv t ih =>
    obtain ⟨k1, v1⟩ := kv
    by_cases hk : k1 = k
    · subst hk
      rw [List.filter_cons, if_neg (by simp [hq v1])]
      exact ih
    · rw [List.filter_cons]
      have hne : (k1 == k) = false := by simpa using hk
      by_cases hq2 : q (k1, v1) = true
      · rw [if_pos hq2]
        simp only [argGet, List.find?_cons, hne]
        exact ih
      · rw [if_neg hq2]
        exact ih

theorem argGet_argDelete_ne (m : ArgMap) (k k' : String) (h : k' ≠ k) :
    argGet (argDelete m k) k' = argGet m k' :=
  argGet_filter_of_true _ m k' (fun _ => by simpa using h)

theorem argGet_argDelete_self (m : ArgMap) (k : String) :
    argGet (argDelete m k) k = none :=
  argGet_filter_of_false _ m k (fun _ => by simp)

theorem argGet_singleton (k k' : String) (v : JVal) :
    argGet [(k, v)] k' = if k = k' then some v else none := by
  by_cases h : k = k'
  · subst h; simp [argGet]
  · rw [if_neg h]
    have hb : (k == k') = false := by simpa using h
    simp [argGet, List.find?_cons, hb]

/-- A `renameStep` whose synonym key is absent does nothing. -/
theorem renameStep_of_absent (m : ArgMap) (q : String × String)
    (h : argGet m q.1 = none) : renameStep m q = m := by
  unfold renameStep
  rw [h]

/-- A `renameStep` never changes the binding of a key that is already
present and is not the synonym key being consumed. -/
theorem renameStep_argGet_present (m : ArgMap) (q : String × String) (c : String)
    (hcq : c ≠ q.1) (hhas : argHas m c = true) :
    argGet (renameStep m q) c = argGet m c := by
  unfold renameStep
  cases hg : argGet m q.1 with
  | none => rfl
  | some v =>
    dsimp only
    by_cases hh : argHas m q.2 = true
    · rw [if_pos hh]
    · rw [if_neg hh, argGet_append, argGet_argDelete_ne m q.1 c hcq]
      unfold argHas at hhas
      cases hc : argGet m c with
      | none => rw [hc] at hhas; simp at hhas
      | some w => simp

/-- A key that is absent and is not the canonical target of the step stays
absent. -/
theorem renameStep_argGet_absent' (m : ArgMap) (q : String × String) (s : String)
    (hs : s ≠ q.2) (habs : argGet m s = none) :
    argGet (renameStep m q) s = none := by
  unfold renameStep
  cases hg : argGet m q.1 with
  | none => exact habs
  | some v =>
    dsimp only
    by_cases hh : argHas m q.2 = true
    · rw [if_pos hh]; exact habs
    · rw [if_neg hh, argGet_append, argGet_singleton, if_neg (fun hhh => hs hhh.symm)]
      by_cases hq1 : s = q.1
      · subst hq1; rw [argGet_argDelete_self]; rfl
      · rw [argGet_argDelete_ne m q.1 s hq1, habs]; rfl

/-- Folding the rename table never changes a key that is present and is not
a synonym key of the table. -/
theorem foldl_renameStep_present (L : List (String × String)) :
    ∀ (m : ArgMap) (c : String), (∀ q ∈ L, c ≠ q.1) → argHas m c = true →
      argGet (L.foldl renameStep m) c = argGet m c := by
  induction L with
  | nil => intro m c _ _; rfl
  | cons q t ih =>
    intro m c hc hhas
    rw [List.foldl_cons]
    have hstep : argGet (renameStep m q) c = argGet m c :=
      renameStep_argGet_present m q c (hc q (by simp)) hhas
    have hhas' : argHas (renameStep m q) c = true := by
      unfold argHas at hhas ⊢
      rw [hstep]
      exact hhas
    rw [ih (renameStep m q) c (fun p hp => hc p (by simp [hp])) hhas', hstep]

/-- Folding the rename table keeps absent a key that is never a canonical
target of the table. -/
theorem foldl_renameStep_absent (L : List (String × String)) :
    ∀ (m : ArgMap) (s : String), (∀ q ∈ L, s ≠ q.2) → argGet m s = none →
      argGet (L.foldl renameStep m) s = none := by
  induction L with
  | nil => intro m s _ h; exact h
  | cons q t ih =>
    intro m s hs habs
    rw [List.foldl_cons]
    exact ih (renameStep m q) s (fun p hp => hs p (by simp [hp]))
      (renameStep_argGet_absent' m q s (hs q (by simp)) habs)

/-- Folding a rename table whose synonym keys are all absent does
nothing. -/
theorem foldl_renameStep_id (L : List (String × String)) :
    ∀ (m : ArgMap), (∀ q ∈ L, argGet m q.1 = none) → L.foldl renameStep m = m := by
  induction L with
  | nil => intro m _; rfl
  | cons q t ih =>
    intro m h
    rw [List.foldl_cons, renameStep_of_absent m q (h q (by simp))]
    exact ih m (fun p hp => h p (by simp [hp]))

/-- The heart of the normalizer: when a synonym key is present, its
canonical key absent, and no other present synonym competes for the same
canonical key, folding the table moves the synonym value to the canonical
key and removes the synonym key. -/
theorem foldl_renameStep_renames (L : List (String × String)) :
    ∀ (m : ArgMap) (s c : String) (v : JVal),
      (s, c) ∈ L → s ≠ c →
      (∀ q ∈ L, c ≠ q.1) →
      (∀ p ∈ L, ∀ q ∈ L, p.1 ≠ q.2) →
      (∀ q ∈ L, q.1 = s → q.2 = c) →
      argGet m c = none → argGet m s = some v →
      (∀ s', (s', c) ∈ L → s' ≠ s → argGet m s' = none) →
      argGet (L.foldl renameStep m) c = some v ∧
      argGet (L.foldl renameStep m) s = none := by
  induction L with
  | nil => intro m s c v hmem; cases hmem
  | cons q t ih =>
    intro m s c v hmem hsc hcL hdisj huniq hcnone hsv hothers
    rw [List.foldl_cons]
    by_cases hq1 : q.1 = s
    · -- the step that fires: q = (s, c)
      have hq2 : q.2 = c := huniq q (by simp) hq1
      have hfire : renameStep m q = argDelete m s ++ [(c, v)] := by
        unfold renameStep
        rw [hq1, hsv]
        dsimp only
        have hfalse : argHas m q.2 = false := by unfold argHas; rw [hq2, hcnone]; rfl
        rw [if_neg (by simp [hfalse]), hq2]
      have hget_c : argGet (renameStep m q) c = some v := by
        rw [hfire, argGet_append, argGet_argDelete_ne m s c (Ne.symm hsc), hcnone,
          argGet_singleton, if_pos rfl]
        rfl
      have hget_s : argGet (renameStep m q) s = none := by
        rw [hfire, argGet_append, argGet_argDelete_self, argGet_singleton,
          if_neg (fun h => hsc h.symm)]
        rfl
      constructor
      · rw [foldl_renameStep_present t (renameStep m q) c
          (fun p hp => hcL p (by simp [hp]))
          (by unfold argHas; rw [hget_c]; rfl), hget_c]
      · exact foldl_renameStep_absent t (renameStep m q) s
          (fun p hp => hdisj (s, c) hmem p (by simp [hp])) hget_s
    · -- a different step: it cannot touch s or c
      have hmem' : (s, c) ∈ t := by
        rcases List.mem_cons.mp hmem with h | h
        · exact absurd (congrArg Prod.fst h).symm hq1
        · exact h
      have htail := fun (p : String × String) (hp : p ∈ t) => List.mem_cons_of_mem q hp
      by_cases hc2 : c = q.2
      · -- q is a competing synonym pair (q.1, c); its key is absent, so the
        -- step does nothing
        have hqmem : (q.1, c) ∈ q :: t := by
          rw [hc2]
          exact List.mem_cons_self q t
        have habs : argGet m q.1 = none := hothers q.1 hqmem hq1
        rw [renameStep_of_absent m q habs]
        exact ih m s c v hmem' hsc (fun p hp => hcL p (htail p hp))
          (fun p hp p' hp' => hdisj p (htail p hp) p' (htail p' hp'))
          (fun p hp => huniq p (htail p hp)) hcnone hsv
          (fun s' hs' hne => hothers s' (htail (s', c) hs') hne)
      · have hstep_c : argGet (renameStep m q) c = none :=
          renameStep_argGet_absent' m q c hc2 hcnone
        have hstep_s : argGet (renameStep m q) s = some v := by
          rw [renameStep_argGet_present m q s (fun h => hq1 h.symm)
            (by unfold argHas; rw [hsv]; rfl)]
          exact hsv
        have hothers' : ∀ s', (s', c) ∈ t → s' ≠ s → argGet (renameStep m q) s' = none := by
          intro s' hs' hne
          refine renameStep_argGet_absent' m q s' ?_ (hothers s' (htail (s', c) hs') hne)
          exact hdisj (s', c) (htail (s', c) hs') q (List.mem_cons_self q t)
        exact ih (renameStep m q) s c v hmem' hsc (fun p hp => hcL p (htail p hp))
          (fun p hp p' hp' => hdisj p (htail p hp) p' (htail p' hp'))
          (fun p hp => huniq p (htail p hp)) hstep_c hstep_s hothers'

theorem argHas_false_iff (m : ArgMap) (k : String) :
    argHas m k = false ↔ argGet m k = none := by
  unfold argHas
  cases argGet m k <;> simp

theorem argHas_true_iff (m : ArgMap) (k : String) :
    argHas m k = true ↔ ∃ v, argGet m k = some v := by
  unfold argHas
  cases argGet m k <;> simp

theorem argGet_eq_none_of_keys (m : ArgMap) (ps : List String) (k : String)
    (hk : ∀ kv ∈ m, kv.1 ∈ ps) (hnk : k ∉ ps) : argGet m k = none := by
  cases h : argGet m k with
  | none => rfl
  | some v =>
    exfalso
    unfold argGet at h
    cases hf : m.find? (fun kv => kv.1 == k) with
    | none => rw [hf] at h; cases h
    | some kv =>
      have hp : kv.1 = k := by simpa using List.find?_some hf
      exact hnk (hp ▸ hk kv (List.mem_of_find?_eq_some hf))

/-- The three tool names with a valid-parameter set, with their sets. -/
theorem validParamsFor_cases (t : String) (ps : List String)
    (h : validParamsFor t = some ps) :
    (t = "read_messages" ∧ ps = ["channel", "server", "limit"]) ∨
    (t = "send_message" ∧ ps = ["channel", "server", "message"]) ∨
    (t = "list_servers" ∧ ps = []) := by
  unfold validParamsFor at h
  by_cases h1 : t = "read_messages"
  · rw [if_pos h1] at h
    cases h
    exact Or.inl ⟨h1, rfl⟩
  · rw [if_neg h1] at h
    by_cases h2 : t = "send_message"
    · rw [if_pos h2] at h
      cases h
      exact Or.inr (Or.inl ⟨h2, rfl⟩)
    · rw [if_neg h2] at h
      by_cases h3 : t = "list_servers"
      · rw [if_pos h3] at h
        cases h
        exact Or.inr (Or.inr ⟨h3, rfl⟩)
      · rw [if_neg h3] at h
        cases h

/-- Every key surviving normalization lies in the valid-parameter set. -/
theorem normalize_keys_subset (t : String) (ps : List String) (m : ArgMap)
    (hps : validParamsFor t = some ps) :
    ∀ kv ∈ normalizeToolArgs t m, kv.1 ∈ ps := by
  intro kv hkv
  unfold normalizeToolArgs at hkv
  rw [hps] at hkv
  dsimp only at hkv
  exact List.mem_of_elem_eq_true (List.mem_filter.mp hkv).2

/-- The normalizer contract, generic over any tool whose synonym table and
valid-parameter set satisfy the structural side conditions (canonical
targets are valid, synonym keys are not, no canonical target is a synonym
key, synonym keys determine their target). -/
theorem normalize_table_contract (t : String) (ps : List String)
    (hps : validParamsFor t = some ps)
    (h1 : ∀ p ∈ mappingsFor t, ps.contains p.2 = true)
    (h2 : ∀ p ∈ mappingsFor t, ps.contains p.1 = false)
    (h3 : ∀ p ∈ mappingsFor t, ∀ q ∈ mappingsFor t, p.2 ≠ q.1)
    (h4 : ∀ p ∈ mappingsFor t, ∀ q ∈ mappingsFor t, p.1 = q.1 → p.2 = q.2)
    (m : ArgMap) :
    (∀ s c, (s, c) ∈ mappingsFor t → argHas m c = true →
      argGet (normalizeToolArgs t m) c = argGet m c) ∧
    (∀ s c, (s, c) ∈ mappingsFor t → argHas m s = true → argHas m c = false →
      (∀ s', (s', c) ∈ mappingsFor t → s' ≠ s → argHas m s' = false) →
      argGet (normalizeToolArgs t m) c = argGet m s ∧
      argHas (normalizeToolArgs t m) s = false) := by
  constructor
  · intro s c hmem hhas
    unfold normalizeToolArgs
    rw [hps]
    dsimp only
    rw [argGet_filter_of_true _ _ c (fun _ => h1 (s, c) hmem)]
    exact foldl_renameStep_present _ m c (fun q hq => h3 (s, c) hmem q hq) hhas
  · intro s c hmem hhas hcnone hothers
    obtain ⟨v, hv⟩ := (argHas_true_iff m s).mp hhas
    have hneq : s ≠ c := by
      intro he
      have ha := h1 (s, c) hmem
      have hb := h2 (s, c) hmem
      dsimp only at ha hb
      rw [← he] at ha
      rw [ha] at hb
      cases hb
    have hrename := foldl_renameStep_renames (mappingsFor t) m s c v hmem hneq
      (fun q hq => h3 (s, c) hmem q hq)
      (fun p hp q hq => Ne.symm (h3 q hq p hp))
      (fun q hq hq1 => h4 q hq (s, c) hmem hq1)
      ((argHas_false_iff _ _).mp hcnone) hv
      (fun s' hs' hne => (argHas_false_iff _ _).mp (hothers s' hs' hne))
    constructor
    · unfold normalizeToolArgs
      rw [hps]
      dsimp only
      rw [argGet_filter_of_true _ _ c (fun _ => h1 (s, c) hmem), hrename.1, hv]
    · rw [argHas_false_iff]
      unfold normalizeToolArgs
      rw [hps]
      dsimp only
      exact argGet_filter_of_false _ _ s (fun _ => h2 (s, c) hmem)

/-- C4.  For every operation with a canonical parameter set and every raw
argument map: a present synonym key is renamed to its (absent) canonical
key keeping the synonym value, a present canonical key is preserved
unchanged even when its synonym is also present, and every key outside the
canonical parameter set is deleted.  (Totality is immediate: the embedded
normalizer is a total function.) -/
theorem C4_normalizeToolArgs_contract (t : String) (ps : List String) (m : ArgMap)
    (hps : validParamsFor t = some ps) :
    (∀ kv ∈ normalizeToolArgs t m, kv.1 ∈ ps) ∧
    (∀ s c, (s, c) ∈ mappingsFor t → argHas m c = true →
      argGet (normalizeToolArgs t m) c = argGet m c) ∧
    (∀ s c, (s, c) ∈ mappingsFor t → argHas m s = true → argHas m c = false →
      (∀ s', (s', c) ∈ mappingsFor t → s' ≠ s → argHas m s' = false) →
      argGet (normalizeToolArgs t m) c = argGet m s ∧
      argHas (normalizeToolArgs t m) s = false) := by
  refine ⟨normalize_keys_subset t ps m hps, ?_⟩
  rcases validParamsFor_cases t ps hps with ⟨rfl, rfl⟩ | ⟨rfl, rfl⟩ | ⟨rfl, rfl⟩ <;>
    exact normalize_table_contract _ _ hps (by decide) (by decide) (by decide) (by decide) m

/-- Witness for C4 at the read operation with a synonym-only map:
channel_name is renamed to channel with its value kept, and the
unrecognized key is dropped. -/
theorem C4_normalizeToolArgs_contract_witness :
    validParamsFor "read_messages" = some ["channel", "server", "limit"] ∧
    ((∀ kv ∈ normalizeToolArgs "read_messages"
        [("channel_name", JVal.jstr "general"), ("start_date", JVal.jstr "x")],
        kv.1 ∈ ["channel", "server", "limit"]) ∧
      (∀ s c, (s, c) ∈ mappingsFor "read_messages" →
        argHas [("channel_name", JVal.jstr "general"), ("start_date", JVal.jstr "x")] c = true →
        argGet (normalizeToolArgs "read_messages"
          [("channel_name", JVal.jstr "general"), ("start_date", JVal.jstr "x")]) c =
        argGet [("channel_name", JVal.jstr "general"), ("start_date", JVal.jstr "x")] c) ∧
      (∀ s c, (s, c) ∈ mappingsFor "read_messages" →
        argHas [("channel_name", JVal.jstr "general"), ("start_date", JVal.jstr "x")] s = true →
        argHas [("channel_name", JVal.jstr "general"), ("start_date", JVal.jstr "x")] c = false →
        (∀ s', (s', c) ∈ mappingsFor "read_messages" → s' ≠ s →
          argHas [("channel_name", JVal.jstr "general"), ("start_date", JVal.jstr "x")] s' = false) →
        argGet (normalizeToolArgs "read_messages"
          [("channel_name", JVal.jstr "general"), ("start_date", JVal.jstr "x")]) c =
        argGet [("channel_name", JVal.jstr "general"), ("start_date", JVal.jstr "x")] s ∧
        argHas (normalizeToolArgs "read_messages"
          [("channel_name", JVal.jstr "general"), ("start_date", JVal.jstr "x")]) s = false)) :=
  ⟨rfl, C4_normalizeToolArgs_contract "read_messages" ["channel", "server", "limit"]
    [("channel_name", JVal.jstr "general"), ("start_date", JVal.jstr "x")] rfl⟩

/-- C10.  Argument normalization is idempotent. -/
theorem C10_normalizeToolArgs_idempotent (t : String) (m : ArgMap) :
    normalizeToolArgs t (normalizeToolArgs t m) = normalizeToolArgs t m := by
  cases hv : validParamsFor t with
  | none =>
    have hmap : mappingsFor t = [] := by
      unfold validParamsFor at hv
      unfold mappingsFor
      by_cases ht1 : t = "read_messages"
      · rw [if_pos ht1] at hv; cases hv
      · rw [if_neg ht1] at hv
        by_cases ht2 : t = "send_message"
        · rw [if_pos ht2] at hv; cases hv
        · rw [if_neg ht1, if_neg ht2]
    have hid : ∀ m', normalizeToolArgs t m' = m' := by
      intro m'
      unfold normalizeToolArgs
      rw [hmap, hv]
      rfl
    rw [hid, hid]
  | some ps =>
    have hsyn : ∀ q ∈ mappingsFor t, q.1 ∉ ps := by
      rcases validParamsFor_cases t ps hv with ⟨rfl, rfl⟩ | ⟨rfl, rfl⟩ | ⟨rfl, rfl⟩ <;> decide
    have hkeys := normalize_keys_subset t ps m hv
    have habs : ∀ q ∈ mappingsFor t, argGet (normalizeToolArgs t m) q.1 = none :=
      fun q hq => argGet_eq_none_of_keys _ ps _ hkeys (hsyn q hq)
    conv_lhs => rw [normalizeToolArgs]
    rw [hv]
    dsimp only
    rw [foldl_renameStep_id _ _ habs]
    have hform : normalizeToolArgs t m =
        ((mappingsFor t).foldl renameStep m).filter (fun kv => ps.contains kv.1) := by
      unfold normalizeToolArgs
      rw [hv]
    rw [hform, List.filter_filter]
    simp

/-! ### C5: the executor never raises and rejects unknown operations -/

/-- C5.  For every operation name outside the capability set the executor
returns the descriptive Unknown-tool error result; and for every operation
whatsoever, the result is either the successful value of the underlying
operation or the failure text prefixed with Error executing tool — the
catch-all converts every thrown failure, so nothing escapes to the
caller. -/
theorem C5_executor_never_throws (st : DiscordState) (toolName : String) (args : ArgMap)
    (h : toolName ∉ (["read_messages", "list_servers", "send_message"] : List String)) :
    executeDiscordTool st toolName args =
      "Error executing tool: " ++ ("Unknown tool: " ++ toolName) ∧
    (∀ (nm : String) (a : ArgMap),
      (∃ v, executeDiscordToolE st nm a = Except.ok v ∧ executeDiscordTool st nm a = v) ∨
      (∃ e, executeDiscordToolE st nm a = Except.error e ∧
        executeDiscordTool st nm a = "Error executing tool: " ++ e)) := by
  have h1 : toolName ≠ "list_servers" := by intro he; exact h (by rw [he]; simp)
  have h2 : toolName ≠ "read_messages" := by intro he; exact h (by rw [he]; simp)
  have h3 : toolName ≠ "send_message" := by intro he; exact h (by rw [he]; simp)
  constructor
  · have hE : executeDiscordToolE st toolName args =
        Except.error ("Unknown tool: " ++ toolName) := by
      unfold executeDiscordToolE
      rw [if_neg h1, if_neg h2, if_neg h3]
    unfold executeDiscordTool
    rw [hE]
  · intro nm a
    cases hE : executeDiscordToolE st nm a with
    | ok v =>
      refine Or.inl ⟨v, rfl, ?_⟩
      unfold executeDiscordTool
      rw [hE]
    | error e =>
      refine Or.inr ⟨e, rfl, ?_⟩
      unfold executeDiscordTool
      rw [hE]

/-- Witness for C5 at the unknown operation name foo. -/
theorem C5_executor_never_throws_witness :
    ("foo" : String) ∉ (["read_messages", "list_servers", "send_message"] : List String) ∧
    (executeDiscordTool ⟨[]⟩ "foo" [] =
      "Error executing tool: " ++ ("Unknown tool: " ++ "foo") ∧
    (∀ (nm : String) (a : ArgMap),
      (∃ v, executeDiscordToolE ⟨[]⟩ nm a = Except.ok v ∧ executeDiscordTool ⟨[]⟩ nm a = v) ∨
      (∃ e, executeDiscordToolE ⟨[]⟩ nm a = Except.error e ∧
        executeDiscordTool ⟨[]⟩ nm a = "Error executing tool: " ++ e))) :=
  ⟨by decide, C5_executor_never_throws ⟨[]⟩ "foo" [] (by decide)⟩

/-! ### C2: location resolution with two connected containers -/

/-- Counterexample to C2 as stated: with two connected servers that both
contain a text channel named general, resolving general with no server
identifier yields the guild-count disambiguation error, whose text does
not name (or even mention) either candidate channel. -/
theorem C2_ambiguity_counterexample :
    executeDiscordTool c2state "read_messages" [("channel", JVal.jstr "general")] =
      "Error executing tool: Bot is in 2 servers. Please specify server name or ID." ∧
    strContains
      "Error executing tool: Bot is in 2 servers. Please specify server name or ID."
      "general" = false := by
  constructor
  · rfl
  · decide

/-- C2 as amended.  When the bot is connected to exactly two containers
that both contain a text location named general and resolution is invoked
for general with no container identifier, resolution fails inside the
container-resolution step with a missing-disambiguation error that reports
the container count and asks for a server identifier (it does not name the
candidate locations); the failure is surfaced as error text by the
executor, never thrown past it. -/
theorem C2_ambiguity_amended (st : DiscordState) (g₁ g₂ : DGuild)
    (hgs : st.guilds = [g₁, g₂])
    (h₁ : ∃ c ∈ g₁.channels, c.name = "general" ∧ c.isText = true)
    (h₂ : ∃ c ∈ g₂.channels, c.name = "general" ∧ c.isText = true) :
    executeDiscordTool st "read_messages" [("channel", JVal.jstr "general")] =
      "Error executing tool: Bot is in 2 servers. Please specify server name or ID." := by
  have hguild : findGuild st none =
      Except.error "Bot is in 2 servers. Please specify server name or ID." := by
    unfold findGuild
    rw [hgs]
    with_unfolding_all rfl
  have hchan : findChannel st "general" none =
      Except.error "Bot is in 2 servers. Please specify server name or ID." := by
    unfold findChannel
    rw [hguild]
  have hnorm : normalizeToolArgs "read_messages" [("channel", JVal.jstr "general")] =
      [("channel", JVal.jstr "general")] := by decide
  have hE : executeDiscordToolE st "read_messages" [("channel", JVal.jstr "general")] =
      Except.error "Bot is in 2 servers. Please specify server name or ID." := by
    unfold executeDiscordToolE
    rw [hnorm]
    rw [if_neg (by decide : ¬("read_messages" : String) = "list_servers"),
      if_pos rfl]
    have hget : argGet [("channel", JVal.jstr "general")] "channel" =
        some (JVal.jstr "general") := by decide
    rw [hget]
    have hsrv : serverArg [("channel", JVal.jstr "general")] = none := by decide
    rw [hsrv]
    dsimp only
    rw [hchan]
  unfold executeDiscordTool
  rw [hE]
  rfl

/-- Witness for C2 as amended, at the concrete two-server state. -/
theorem C2_ambiguity_amended_witness :
    c2state.guilds = [c2guildA, c2guildB] ∧
    (∃ c ∈ c2guildA.channels, c.name = "general" ∧ c.isText = true) ∧
    (∃ c ∈ c2guildB.channels, c.name = "general" ∧ c.isText = true) ∧
    executeDiscordTool c2state "read_messages" [("channel", JVal.jstr "general")] =
      "Error executing tool: Bot is in 2 servers. Please specify server name or ID." :=
  ⟨rfl, by decide, by decide,
    C2_ambiguity_amended c2state c2guildA c2guildB rfl (by decide) (by decide)⟩

/-! ### C3: the read operation and its count clamp -/

/-- Counterexample to C3 as stated: the count computation of the read
operation is `Math.min(limit, 100)`, which applies no lower bound — a
requested count of 0 is passed through as 0, outside [1, 100], and the
operation fetches nothing even from a channel that has a message. -/
theorem C3_clamp_counterexample :
    fetchLimit 0 = 0 ∧
    ¬ (1 ≤ fetchLimit 0 ∧ fetchLimit 0 ≤ 100) ∧
    c3chan.messages.length = 1 ∧
    executeDiscordTool c3state "read_messages"
      [("channel", JVal.jstr "general"), ("limit", JVal.jnum 0)] =
      "Messages from #general in Alpha:\n[]" :=
  ⟨rfl, by decide, rfl, by decide⟩

/-- C3 as amended.  For every read with a successfully resolved location
and a model-supplied count n, the executor caps the count at 100 (upper
clamp only — no lower bound is applied) and returns the fetched items in
chronological order, oldest first: the returned list is a suffix of the
channel history, of length at most 100, rendered with author, text,
timestamp and attachment references by `renderMsgs`. -/
theorem C3_read_clamp_amended (st : DiscordState) (chanId : String) (n : Int)
    (ch : DChannel) (g : DGuild)
    (hres : findChannel st chanId none = Except.ok (ch, g)) :
    executeDiscordTool st "read_messages"
      [("channel", JVal.jstr chanId), ("limit", JVal.jnum n)] =
      "Messages from #" ++ ch.name ++ " in " ++ g.name ++ ":\n" ++
        renderMsgs ((ch.messages.reverse.take (fetchLimit n).toNat).reverse) ∧
    fetchLimit n = min n 100 ∧
    ((ch.messages.reverse.take (fetchLimit n).toNat).reverse).length ≤ 100 ∧
    ((ch.messages.reverse.take (fetchLimit n).toNat).reverse) <:+ ch.messages := by
  refine ⟨?_, rfl, ?_, ?_⟩
  · have hnorm : normalizeToolArgs "read_messages"
        [("channel", JVal.jstr chanId), ("limit", JVal.jnum n)] =
        [("channel", JVal.jstr chanId), ("limit", JVal.jnum n)] := rfl
    have hE : executeDiscordToolE st "read_messages"
        [("channel", JVal.jstr chanId), ("limit", JVal.jnum n)] =
        Except.ok ("Messages from #" ++ ch.name ++ " in " ++ g.name ++ ":\n" ++
          renderMsgs ((ch.messages.reverse.take (fetchLimit n).toNat).reverse)) := by
      unfold executeDiscordToolE
      rw [hnorm]
      rw [if_neg (by decide : ¬("read_messages" : String) = "list_servers"), if_pos rfl]
      have hget : argGet [("channel", JVal.jstr chanId), ("limit", JVal.jnum n)] "channel" =
          some (JVal.jstr chanId) := rfl
      rw [hget]
      dsimp only
      have hsrv : serverArg [("channel", JVal.jstr chanId), ("limit", JVal.jnum n)] = none := rfl
      rw [hsrv, hres]
      dsimp only
      have hlim : argGet [("channel", JVal.jstr chanId), ("limit", JVal.jnum n)] "limit" =
          some (JVal.jnum n) := rfl
      rw [hlim]
      rfl
    unfold executeDiscordTool
    rw [hE]
  · have h1 : (fetchLimit n).toNat ≤ 100 := by unfold fetchLimit; omega
    rw [List.length_reverse, List.length_take]
    omega
  · exact ⟨(ch.messages.reverse.drop (fetchLimit n).toNat).reverse,
      by rw [← List.reverse_append, List.take_append_drop, List.reverse_reverse]⟩

/-- Witness for C3 as amended: the concrete one-guild state, count 120
(capped to 100). -/
theorem C3_read_clamp_amended_witness :
    findChannel c3state "general" none = Except.ok (c3chan, c3guild) ∧
    (executeDiscordTool c3state "read_messages"
      [("channel", JVal.jstr "general"), ("limit", JVal.jnum 120)] =
      "Messages from #" ++ c3chan.name ++ " in " ++ c3guild.name ++ ":\n" ++
        renderMsgs ((c3chan.messages.reverse.take (fetchLimit 120).toNat).reverse) ∧
    fetchLimit 120 = min 120 100 ∧
    ((c3chan.messages.reverse.take (fetchLimit 120).toNat).reverse).length ≤ 100 ∧
    ((c3chan.messages.reverse.take (fetchLimit 120).toNat).reverse) <:+ c3chan.messages) :=
  ⟨rfl, C3_read_clamp_amended c3state "general" 120 c3chan c3guild rfl⟩

/-! ### C8 and C9: per-round tool execution -/

/-- A payload whose JSON decode fails is replaced by the empty argument
map. -/
theorem decodeToolArgs_of_parse_failure (env : LoopEnv) (raw : String)
    (h : env.jsonParse raw = none) : decodeToolArgs env raw = [] := by
  unfold decodeToolArgs
  split
  · rw [h]; rfl
  · rfl

/-- C8.  In a round, every tool call whose raw argument payload fails to
decode is still executed, with the empty argument map substituted, and
still yields a ToolResult turn tagged with its correlation id at its own
position; a decode failure never aborts the round (one result per call,
always). -/
theorem C8_decode_failure_recovered (env : LoopEnv) (calls : List ToolCall)
    (i : Nat) (hi : i < calls.length)
    (hfail : env.jsonParse (calls.get ⟨i, hi⟩).arguments = none) :
    (roundToolResults env calls).length = calls.length ∧
    (roundToolResults env calls).get ⟨i, by simpa [roundToolResults] using hi⟩ =
      Turn.tool (calls.get ⟨i, hi⟩).id
        (executeDiscordTool env.discord (calls.get ⟨i, hi⟩).name []) := by
  constructor
  · simp [roundToolResults]
  · have hmap : (roundToolResults env calls).get ⟨i, by simpa [roundToolResults] using hi⟩ =
        Turn.tool (calls.get ⟨i, hi⟩).id
          (executeDiscordTool env.discord (calls.get ⟨i, hi⟩).name
            (decodeToolArgs env (calls.get ⟨i, hi⟩).arguments)) := by
      simp [roundToolResults, List.get_eq_getElem, List.getElem_map]
    rw [hmap, decodeToolArgs_of_parse_failure env _ hfail]

/-- Witness for C8 at a one-call round whose payload cannot decode. -/
theorem C8_decode_failure_recovered_witness :
    0 < c8calls.length ∧
    c8env.jsonParse (c8calls.get ⟨0, by decide⟩).arguments = none ∧
    ((roundToolResults c8env c8calls).length = c8calls.length ∧
      (roundToolResults c8env c8calls).get ⟨0, by simp [roundToolResults, c8calls]⟩ =
        Turn.tool (c8calls.get ⟨0, by decide⟩).id
          (executeDiscordTool c8env.discord (c8calls.get ⟨0, by decide⟩).name [])) :=
  ⟨by decide, rfl, C8_decode_failure_recovered c8env c8calls 0 (by decide) rfl⟩

/-- C9.  In every round whose assistant turn carries tool calls: the
ToolResult turns are produced in exactly the order the requests were
issued, carrying exactly the request ids (so with unique request ids each
id appears exactly once among the result ids); and the loop appends the
assistant turn followed by all the ToolResults to the turn sequence
before the follow-up completion call is issued on that enlarged
sequence. -/
theorem C9_round_correlation (env : LoopEnv) (calls : List ToolCall)
    (hnd : (calls.map ToolCall.id).Nodup) :
    (roundToolResults env calls).map turnId = calls.map ToolCall.id ∧
    (∀ cid ∈ calls.map ToolCall.id,
      ((roundToolResults env calls).map turnId).count cid = 1) ∧
    (∀ (messages : List Turn) (am : AssistantMessage) (depth : Nat),
      depth < MAX_DEPTH → am.tool_calls = calls → calls ≠ [] →
      executeToolsRecursively env messages am depth =
        match env.llm (messages ++ [Turn.assistant am] ++ roundToolResults env calls) with
        | Except.error e => Except.error e
        | Except.ok followUp => executeToolsRecursively env
            (messages ++ [Turn.assistant am] ++ roundToolResults env calls)
            followUp (depth + 1)) := by
  have hmapeq : (roundToolResults env calls).map turnId = calls.map ToolCall.id := by
    unfold roundToolResults
    rw [List.map_map]
    rfl
  refine ⟨hmapeq, ?_, ?_⟩
  · intro cid hcid
    rw [hmapeq]
    exact List.count_eq_one_of_mem hnd hcid
  · intro messages am depth hdepth ham hne
    subst ham
    have hfuel : MAX_DEPTH - depth = (MAX_DEPTH - (depth + 1)) + 1 := by
      unfold MAX_DEPTH at hdepth ⊢
      omega
    unfold executeToolsRecursively
    rw [hfuel]
    have hsniff : sniffSubstitute env am = am := by
      unfold sniffSubstitute
      rw [if_pos hne]
    show goLoop env _ messages am depth = _
    simp only [goLoop, hsniff]
    rw [if_neg (by unfold MAX_DEPTH at hdepth ⊢; omega), if_neg hne]

/-- Witness for C9 at a two-call round with distinct correlation ids. -/
theorem C9_round_correlation_witness :
    (c9calls.map ToolCall.id).Nodup ∧
    ((roundToolResults c8env c9calls).map turnId = c9calls.map ToolCall.id ∧
      (∀ cid ∈ c9calls.map ToolCall.id,
        ((roundToolResults c8env c9calls).map turnId).count cid = 1) ∧
      (∀ (messages : List Turn) (am : AssistantMessage) (depth : Nat),
        depth < MAX_DEPTH → am.tool_calls = c9calls → c9calls ≠ [] →
        executeToolsRecursively c8env messages am depth =
          match c8env.llm (messages ++ [Turn.assistant am] ++ roundToolResults c8env c9calls) with
          | Except.error e => Except.error e
          | Except.ok followUp => executeToolsRecursively c8env
              (messages ++ [Turn.assistant am] ++ roundToolResults c8env c9calls)
              followUp (depth + 1))) :=
  ⟨by decide, C9_round_correlation c8env c9calls (by decide)⟩

/-! ### C1: the depth bound of the recursive tool loop -/

theorem jsOrStr_ne_empty (a : Option String) (b : String) (hb : b ≠ "") :
    jsOrStr a b ≠ "" := by
  unfold jsOrStr
  cases a with
  | none => exact hb
  | some s =>
    dsimp only
    by_cases hs : s = ""
    · rw [if_pos hs]; exact hb
    · rw [if_neg hs]; exact hs

/-- The depth-bound text is never empty: the fixed notice is non-empty and
the or-chain only ever returns a non-empty link or the notice. -/
theorem depthBoundText_ne_empty (am : AssistantMessage) : depthBoundText am ≠ "" :=
  jsOrStr_ne_empty _ _ (jsOrStr_ne_empty _ _ (by decide))

/-- A loop whose completion oracle always answers with tool calls runs
exactly `fuel` rounds from depth `MAX_DEPTH - fuel` and then returns the
depth-bound text of the round-`MAX_DEPTH` assistant message. -/
theorem goLoop_all_tool_calls (env : LoopEnv)
    (hllm : ∀ ms, ∃ m, env.llm ms = Except.ok m ∧ m.tool_calls ≠ []) :
    ∀ (fuel : Nat) (messages : List Turn) (am : AssistantMessage),
      am.tool_calls ≠ [] → ∀ depth, depth + fuel = MAX_DEPTH →
      goRounds env fuel messages am depth = fuel ∧
      ∃ m, m.tool_calls ≠ [] ∧
        goLoop env fuel messages am depth = Except.ok (depthBoundText m) := by
  intro fuel
  induction fuel with
  | zero =>
    intro messages am ham depth hdep
    exact ⟨rfl, am, ham, rfl⟩
  | succ fuel ih =>
    intro messages am ham depth hdep
    have hlt : ¬ depth ≥ MAX_DEPTH := by omega
    have hsniff : sniffSubstitute env am = am := by
      unfold sniffSubstitute
      rw [if_pos ham]
    obtain ⟨m, hm, hmc⟩ :=
      hllm (messages ++ [Turn.assistant am] ++ roundToolResults env am.tool_calls)
    obtain ⟨hr, m', hm', hg⟩ :=
      ih (messages ++ [Turn.assistant am] ++ roundToolResults env am.tool_calls) m hmc
        (depth + 1) (by omega)
    constructor
    · simp only [goRounds, hsniff]
      rw [if_neg hlt, if_neg ham, hm]
      dsimp only
      rw [hr]
      omega
    · refine ⟨m', hm', ?_⟩
      simp only [goLoop, hsniff]
      rw [if_neg hlt, if_neg ham, hm]
      exact hg

/-- C1 as amended.  Whenever the initial assistant message carries tool
calls and every follow-up completion again carries tool calls, the loop
executes exactly `MAX_DEPTH` (5) tool rounds and terminates, returning the
best available text of the final assistant message with preference
reasoning channel first, then textual content, then the fixed
depth-exceeded notice; the returned text is non-empty. -/
theorem C1_depth_bound_amended (env : LoopEnv) (messages : List Turn)
    (am : AssistantMessage) (ham : am.tool_calls ≠ [])
    (hllm : ∀ ms, ∃ m, env.llm ms = Except.ok m ∧ m.tool_calls ≠ []) :
    loopRounds env messages am 0 = MAX_DEPTH ∧
    ∃ (m : AssistantMessage) (t : String),
      executeToolsRecursively env messages am 0 = Except.ok t ∧
      t = jsOrStr m.reasoning (jsOrStr m.content "Maximum tool calling depth reached.") ∧
      t ≠ "" := by
  obtain ⟨hr, m, hmc, hg⟩ :=
    goLoop_all_tool_calls env hllm MAX_DEPTH messages am ham 0 (by omega)
  refine ⟨hr, m, depthBoundText m, hg, ?_, depthBoundText_ne_empty m⟩
  rfl

/-- Counterexample to C1 as stated: at the depth bound the source prefers
the reasoning channel over the textual content
(`reasoning || content || notice`), so a final message carrying both
returns its reasoning, not its content. -/
theorem C1_depth_preference_counterexample :
    c1msg.content = some "CONTENT" ∧
    c1msg.reasoning = some "REASONING" ∧
    executeToolsRecursively c1env [] c1msg 0 = Except.ok "REASONING" ∧
    ("REASONING" : String) ≠ "CONTENT" :=
  ⟨rfl, rfl, rfl, by decide⟩

/-- Witness for C1 as amended, at the concrete always-tool-calling
environment. -/
theorem C1_depth_bound_amended_witness :
    c1msg.tool_calls ≠ [] ∧
    (∀ ms, ∃ m, c1env.llm ms = Except.ok m ∧ m.tool_calls ≠ []) ∧
    (loopRounds c1env [] c1msg 0 = MAX_DEPTH ∧
      ∃ (m : AssistantMessage) (t : String),
        executeToolsRecursively c1env [] c1msg 0 = Except.ok t ∧
        t = jsOrStr m.reasoning (jsOrStr m.content "Maximum tool calling depth reached.") ∧
        t ≠ "") :=
  ⟨by decide, fun _ => ⟨c1msg, rfl, by decide⟩,
    C1_depth_bound_amended c1env [] c1msg (by decide)
      (fun _ => ⟨c1msg, rfl, by decide⟩)⟩

/-! ### C7: JSON-sniffing recovery of tool intent emitted as text -/

/-- A message that already carries tool calls passes the sniffing step
unchanged. -/
theorem sniffSubstitute_of_tool_calls (env : LoopEnv) (am : AssistantMessage)
    (h : am.tool_calls ≠ []) : sniffSubstitute env am = am := by
  unfold sniffSubstitute
  rw [if_pos h]

/-- Below the depth bound, a loop step behaves identically on a message and
on its sniff-substituted form, provided the substituted form carries tool
calls — re-entering the loop at the same depth with the synthetic message
is the same as substituting it. -/
theorem goLoop_sniff_eq (env : LoopEnv) (fuel : Nat) (ms : List Turn)
    (am : AssistantMessage) (depth : Nat)
    (hlt : ¬ depth ≥ MAX_DEPTH)
    (h : (sniffSubstitute env am).tool_calls ≠ []) :
    goLoop env (fuel + 1) ms am depth =
      goLoop env (fuel + 1) ms (sniffSubstitute env am) depth := by
  have hidem : sniffSubstitute env (sniffSubstitute env am) = sniffSubstitute env am :=
    sniffSubstitute_of_tool_calls env _ h
  simp only [goLoop]
  rw [hidem]
  rw [if_neg hlt]
  rw [if_neg hlt]
  rw [if_neg h]
  rw [if_neg h]

/-- C7 as amended.  When an assistant turn has no tool calls but its
content is a JSON object text mentioning a channel key that the JSON
library parses, the loop synthesizes exactly one tool call carrying the
re-serialized arguments and proceeds exactly as if the model had requested
it at the same depth; the synthesized operation is send_message when the
parsed object carries a truthy message value and read_messages otherwise
(in particular, the raw text with only a channel key synthesizes a read).
Presence of a message key alone does not imply send: only truthiness
does. -/
theorem C7_sniff_amended (env : LoopEnv) (messages : List Turn)
    (am : AssistantMessage) (c : String) (args : ArgMap) (depth : Nat)
    (hdepth : depth < MAX_DEPTH)
    (hcalls : am.tool_calls = [])
    (hcontent : am.content = some c)
    (hne : c ≠ "")
    (hbrace : startsWithL [Char.ofNat 123] (jsTrimL c.data) = true)
    (hchan : strContains c "\"channel\"" = true)
    (hparse : env.jsonParse c = some args) :
    sniffSubstitute env am = AssistantMessage.mk none none
      [ToolCall.mk syntheticId
        (if jsTruthy (argGet args "message") then "send_message" else "read_messages")
        (env.jsonStringify args)] ∧
    executeToolsRecursively env messages am depth =
      executeToolsRecursively env messages
        (AssistantMessage.mk none none
          [ToolCall.mk syntheticId
            (if jsTruthy (argGet args "message") then "send_message" else "read_messages")
            (env.jsonStringify args)]) depth := by
  have hsniff : sniffSubstitute env am = AssistantMessage.mk none none
      [ToolCall.mk syntheticId
        (if jsTruthy (argGet args "message") then "send_message" else "read_messages")
        (env.jsonStringify args)] := by
    unfold sniffSubstitute
    rw [if_neg (by simp [hcalls]), hcontent]
    dsimp only
    rw [if_pos (by simp [hne, hbrace, hchan]), hparse]
  refine ⟨hsniff, ?_⟩
  have hk : MAX_DEPTH - depth = (MAX_DEPTH - depth - 1) + 1 := by
    unfold MAX_DEPTH at hdepth ⊢
    omega
  have hlt : ¬ depth ≥ MAX_DEPTH := by omega
  rw [← hsniff]
  unfold executeToolsRecursively
  rw [hk]
  exact goLoop_sniff_eq env (MAX_DEPTH - depth - 1) messages am depth hlt
    (by rw [hsniff]; simp)

/-- Witness for C7 as amended at the concrete scenario text
`(channel: general)` with no message key: a single read_messages call is
synthesized and executed. -/
theorem C7_sniff_amended_witness :
    (0 : Nat) < MAX_DEPTH ∧
    (⟨some c7text, none, []⟩ : AssistantMessage).tool_calls = [] ∧
    c7env.jsonParse c7text = some c7args ∧
    jsTruthy (argGet c7args "message") = false ∧
    (sniffSubstitute c7env ⟨some c7text, none, []⟩ = AssistantMessage.mk none none
        [ToolCall.mk syntheticId
          (if jsTruthy (argGet c7args "message") then "send_message" else "read_messages")
          (c7env.jsonStringify c7args)] ∧
      executeToolsRecursively c7env [] ⟨some c7text, none, []⟩ 0 =
        executeToolsRecursively c7env []
          (AssistantMessage.mk none none
            [ToolCall.mk syntheticId
              (if jsTruthy (argGet c7args "message") then "send_message" else "read_messages")
              (c7env.jsonStringify c7args)]) 0) :=
  ⟨by decide, rfl, by decide, by decide,
    C7_sniff_amended c7env [] ⟨some c7text, none, []⟩ c7text c7args 0
      (by decide) rfl rfl (by decide) (by decide) (by decide) (by decide)⟩

/-- Counterexample to C7 as stated: a sniffed object whose message key is
present (with an empty-string value) still synthesizes a read_messages
call, because the source tests truthiness of the value, not presence of
the key. -/
theorem C7_sniff_counterexample :
    argHas c7args2 "message" = true ∧
    c7env2.jsonParse c7text2 = some c7args2 ∧
    (sniffSubstitute c7env2 ⟨some c7text2, none, []⟩).tool_calls.map ToolCall.name =
      ["read_messages"] ∧
    (["read_messages"] : List String) ≠ ["send_message"] :=
  ⟨by decide, by decide, by decide, by decide⟩

/-! ### C6: response segmentation -/

theorem allWs_append (u v : List Char) (hu : allWs u = true) (hv : allWs v = true) :
    allWs (u ++ v) = true := by
  unfold allWs at *
  rw [List.all_append, hu, hv]
  rfl

/-- Trimming splits a list into a whitespace prefix, the trimmed core, and
a whitespace suffix. -/
theorem jsTrimL_decomp (l : List Char) :
    ∃ w₁ w₂, allWs w₁ = true ∧ allWs w₂ = true ∧ l = w₁ ++ (jsTrimL l ++ w₂) := by
  refine ⟨l.takeWhile wsChar, ((l.dropWhile wsChar).reverse.takeWhile wsChar).reverse, ?_, ?_, ?_⟩
  · unfold allWs
    rw [List.all_eq_true]
    intro c hc
    exact List.mem_takeWhile_imp hc
  · unfold allWs
    rw [List.all_eq_true]
    intro c hc
    exact List.mem_takeWhile_imp (List.mem_reverse.mp hc)
  · conv_lhs => rw [← List.takeWhile_append_dropWhile wsChar l]
    congr 1
    conv_lhs =>
      rw [← List.reverse_reverse (l.dropWhile wsChar),
        ← List.takeWhile_append_dropWhile wsChar (l.dropWhile wsChar).reverse,
        List.reverse_append]
    rfl

theorem reconstructs_append_ws (ps : List (List Char)) :
    ∀ (t v : List Char), reconstructs ps t → allWs v = true → reconstructs ps (t ++ v) := by
  induction ps with
  | nil =>
    intro t v ht hv
    exact allWs_append t v ht hv
  | cons p ps ih =>
    intro t v ht hv
    obtain ⟨w, rest, hw, heq, hrec⟩ := ht
    exact ⟨w, rest ++ v, hw, by rw [heq]; simp, ih rest v hrec hv⟩

theorem reconstructs_ws_cons (ps : List (List Char)) :
    ∀ (u t : List Char), allWs u = true → reconstructs ps t → reconstructs ps (u ++ t) := by
  cases ps with
  | nil =>
    intro u t hu ht
    exact allWs_append u t hu ht
  | cons p ps =>
    intro u t hu ht
    obtain ⟨w, rest, hw, heq, hrec⟩ := ht
    exact ⟨u ++ w, rest, allWs_append u w hu hw, by rw [heq]; simp, hrec⟩

/-- The parts of the splitting loop reconstruct the original text up to the
whitespace trimmed at each boundary. -/
theorem splitParts_reconstructs_fueled :
    ∀ (n : Nat) (r : List Char), r.length ≤ n → reconstructs (splitParts r) r := by
  intro n
  induction n with
  | zero =>
    intro r hr
    have h0 : r = [] := List.length_eq_zero.mp (Nat.le_antisymm hr (Nat.zero_le _))
    subst h0
    show allWs [] = true
    rfl
  | succ n ih =>
    intro r hr
    by_cases h0 : r = []
    · subst h0
      show allWs [] = true
      rfl
    · by_cases h1 : r.length ≤ MAX_LENGTH
      · rw [splitParts_eq_single r h0 h1]
        exact ⟨[], [], rfl, by simp, rfl⟩
      · rw [splitParts_eq_cons r h0 (by omega)]
        obtain ⟨a, b, ha, hb, htake⟩ := jsTrimL_decomp (r.take (chooseSplit r))
        have hsp : 0 < chooseSplit r := chooseSplit_pos r
        have hrest : (jsTrimL (r.drop (chooseSplit r))).length ≤ n := by
          have h2 := jsTrimL_length_le (r.drop (chooseSplit r))
          have h3 : (r.drop (chooseSplit r)).length = r.length - chooseSplit r :=
            List.length_drop _ _
          omega
        set rest : List Char := jsTrimL (r.drop (chooseSplit r)) with hrestdef
        obtain ⟨c, d, hc, hd, hdropd⟩ := jsTrimL_decomp (r.drop (chooseSplit r))
        rw [← hrestdef] at hdropd
        refine ⟨a, b ++ r.drop (chooseSplit r), ha, ?_, ?_⟩
        · conv_lhs => rw [← List.take_append_drop (chooseSplit r) r, htake]
          simp
        · rw [hdropd,
            show b ++ (c ++ (rest ++ d)) = ((b ++ c) ++ rest) ++ d by simp]
          exact reconstructs_append_ws _ _ d
            (reconstructs_ws_cons _ (b ++ c) _ (allWs_append b c hb hc) (ih _ hrest)) hd

/-- Reconstruction at full fuel. -/
theorem splitParts_reconstructs (r : List Char) : reconstructs (splitParts r) r :=
  splitParts_reconstructs_fueled r.length r (Nat.le_refl _)

/-- Every part of the splitting loop has at most `MAX_LENGTH + 1`
characters (the sentence-terminator branch can split one character past
the window). -/
theorem splitParts_chunk_le_fueled :
    ∀ (n : Nat) (r : List Char), r.length ≤ n →
      ∀ p ∈ splitParts r, p.length ≤ MAX_LENGTH + 1 := by
  intro n
  induction n with
  | zero =>
    intro r hr p hp
    have h0 : r = [] := List.length_eq_zero.mp (Nat.le_antisymm hr (Nat.zero_le _))
    subst h0
    cases hp
  | succ n ih =>
    intro r hr p hp
    by_cases h0 : r = []
    · subst h0
      cases hp
    · by_cases h1 : r.length ≤ MAX_LENGTH
      · rw [splitParts_eq_single r h0 h1] at hp
        rcases List.mem_singleton.mp hp with rfl
        omega
      · rw [splitParts_eq_cons r h0 (by omega)] at hp
        rcases List.mem_cons.mp hp with rfl | hp'
        · have h2 := jsTrimL_length_le (r.take (chooseSplit r))
          have h3 : (r.take (chooseSplit r)).length ≤ chooseSplit r := by
            rw [List.length_take]
            omega
          have h4 := chooseSplit_le r
          omega
        · have hsp : 0 < chooseSplit r := chooseSplit_pos r
          have hrest : (jsTrimL (r.drop (chooseSplit r))).length ≤ n := by
            have h2 := jsTrimL_length_le (r.drop (chooseSplit r))
            have h3 : (r.drop (chooseSplit r)).length = r.length - chooseSplit r :=
              List.length_drop _ _
            omega
          exact ih _ hrest p hp'

/-- Chunk bound at full fuel. -/
theorem splitParts_chunk_le (r : List Char) :
    ∀ p ∈ splitParts r, p.length ≤ MAX_LENGTH + 1 :=
  splitParts_chunk_le_fueled r.length r (Nat.le_refl _)

/-- When more than one part is produced, every delivered message is a part
prefixed with a Part j/N marker. -/
theorem renderedAux_marker (n : Nat) (hn : 1 < n) :
    ∀ (ps : List (List Char)) (i : Nat), ∀ m ∈ renderedAux n i ps,
      ∃ j p, p ∈ ps ∧ m = partMarker j n ++ p := by
  intro ps
  induction ps with
  | nil => intro i m hm; cases hm
  | cons p ps ih =>
    intro i m hm
    rcases List.mem_cons.mp hm with rfl | hm'
    · refine ⟨i + 1, p, List.mem_cons_self p ps, ?_⟩
      rw [if_pos hn]
    · obtain ⟨j, q, hq, heq⟩ := ih (i + 1) m hm'
      exact ⟨j, q, List.mem_cons_of_mem p hq, heq⟩

/-- The split-point preference of `chooseSplit`: a paragraph break in the
back half wins; else a sentence terminator in the back 0.3 splits one past
the period; else a line break in the back 0.3; else a hard cut at the
window size. -/
theorem chooseSplit_preference :
    (∀ (r : List Char) (p : Nat),
      lastIndexOfFrom ['\n', '\n'] r MAX_LENGTH = some p → 975 < p →
      chooseSplit r = p) ∧
    (∀ (r : List Char) (s : Nat),
      (∀ p, lastIndexOfFrom ['\n', '\n'] r MAX_LENGTH = some p → p ≤ 975) →
      lastIndexOfFrom ['.', ' '] r MAX_LENGTH = some s → 1365 < s →
      chooseSplit r = s + 1) ∧
    (∀ (r : List Char) (lb : Nat),
      (∀ p, lastIndexOfFrom ['\n', '\n'] r MAX_LENGTH = some p → p ≤ 975) →
      (∀ s, lastIndexOfFrom ['.', ' '] r MAX_LENGTH = some s → s ≤ 1365) →
      lastIndexOfFrom ['\n'] r MAX_LENGTH = some lb → 1365 < lb →
      chooseSplit r = lb) ∧
    (∀ (r : List Char),
      (∀ p, lastIndexOfFrom ['\n', '\n'] r MAX_LENGTH = some p → p ≤ 975) →
      (∀ s, lastIndexOfFrom ['.', ' '] r MAX_LENGTH = some s → s ≤ 1365) →
      (∀ lb, lastIndexOfFrom ['\n'] r MAX_LENGTH = some lb → lb ≤ 1365) →
      chooseSplit r = MAX_LENGTH) := by
  have hline : ∀ (r : List Char) (lb : Nat),
      (∀ s, lastIndexOfFrom ['.', ' '] r MAX_LENGTH = some s → s ≤ 1365) →
      lastIndexOfFrom ['\n'] r MAX_LENGTH = some lb → 1365 < lb →
      sentenceOr r = lb := by
    intro r lb hsent hlb hgt
    unfold sentenceOr lineOrHard
    rw [hlb]
    cases hs : lastIndexOfFrom ['.', ' '] r MAX_LENGTH with
    | none =>
      dsimp only
      rw [if_pos hgt]
    | some s =>
      dsimp only
      rw [if_neg (by have := hsent s hs; omega), if_pos hgt]
  have hhard : ∀ (r : List Char),
      (∀ s, lastIndexOfFrom ['.', ' '] r MAX_LENGTH = some s → s ≤ 1365) →
      (∀ lb, lastIndexOfFrom ['\n'] r MAX_LENGTH = some lb → lb ≤ 1365) →
      sentenceOr r = MAX_LENGTH := by
    intro r hsent hlbs
    unfold sentenceOr lineOrHard
    cases hs : lastIndexOfFrom ['.', ' '] r MAX_LENGTH with
    | none =>
      dsimp only
      cases hlb : lastIndexOfFrom ['\n'] r MAX_LENGTH with
      | none => rfl
      | some lb =>
        dsimp only
        rw [if_neg (by have := hlbs lb hlb; omega)]
    | some s =>
      dsimp only
      rw [if_neg (by have := hsent s hs; omega)]
      cases hlb : lastIndexOfFrom ['\n'] r MAX_LENGTH with
      | none => rfl
      | some lb =>
        dsimp only
        rw [if_neg (by have := hlbs lb hlb; omega)]
  have hsentence : ∀ (r : List Char) (s : Nat),
      lastIndexOfFrom ['.', ' '] r MAX_LENGTH = some s → 1365 < s →
      sentenceOr r = s + 1 := by
    intro r s hs hgt
    unfold sentenceOr
    rw [hs]
    dsimp only
    rw [if_pos hgt]
  have hpgfail : ∀ (r : List Char),
      (∀ p, lastIndexOfFrom ['\n', '\n'] r MAX_LENGTH = some p → p ≤ 975) →
      chooseSplit r = sentenceOr r := by
    intro r hpg
    unfold chooseSplit
    cases hp : lastIndexOfFrom ['\n', '\n'] r MAX_LENGTH with
    | none => rfl
    | some p =>
      dsimp only
      rw [if_neg (by have := hpg p hp; omega)]
  refine ⟨?_, ?_, ?_, ?_⟩
  · intro r p hp hgt
    unfold chooseSplit
    rw [hp]
    dsimp only
    rw [if_pos hgt]
  · intro r s hpg hs hgt
    rw [hpgfail r hpg]
    exact hsentence r s hs hgt
  · intro r lb hpg hsent hlb hgt
    rw [hpgfail r hpg]
    exact hline r lb hsent hlb hgt
  · intro r hpg hsent hlbs
    rw [hpgfail r hpg]
    exact hhard r hsent hlbs

/-- C6 as amended.  For every final answer longer than the limit, the
splitting loop produces chunks of at most limit+1 characters (the
sentence-terminator branch can exceed the limit by exactly one character);
the chunks, interleaved with the whitespace runs trimmed at each boundary,
reconstruct the original text; when more than one chunk results every
delivered message is a chunk prefixed with a Part j/N marker; and the
split point of each iteration follows the stated greedy preference:
paragraph break in the back 50% of the window, else sentence terminator in
the back 30% (split after the period), else line break in the back 30%,
else a hard cut at the limit. -/
theorem C6_segmentation_amended (text : List Char) (h : MAX_LENGTH < text.length) :
    (∀ p ∈ splitParts text, p.length ≤ MAX_LENGTH + 1) ∧
    reconstructs (splitParts text) text ∧
    (1 < (splitParts text).length →
      ∀ m ∈ renderedParts (splitParts text),
        ∃ j p, p ∈ splitParts text ∧ m = partMarker j (splitParts text).length ++ p) ∧
    ((∀ (r : List Char) (p : Nat),
        lastIndexOfFrom ['\n', '\n'] r MAX_LENGTH = some p → 975 < p →
        chooseSplit r = p) ∧
      (∀ (r : List Char) (s : Nat),
        (∀ p, lastIndexOfFrom ['\n', '\n'] r MAX_LENGTH = some p → p ≤ 975) →
        lastIndexOfFrom ['.', ' '] r MAX_LENGTH = some s → 1365 < s →
        chooseSplit r = s + 1) ∧
      (∀ (r : List Char) (lb : Nat),
        (∀ p, lastIndexOfFrom ['\n', '\n'] r MAX_LENGTH = some p → p ≤ 975) →
        (∀ s, lastIndexOfFrom ['.', ' '] r MAX_LENGTH = some s → s ≤ 1365) →
        lastIndexOfFrom ['\n'] r MAX_LENGTH = some lb → 1365 < lb →
        chooseSplit r = lb) ∧
      (∀ (r : List Char),
        (∀ p, lastIndexOfFrom ['\n', '\n'] r MAX_LENGTH = some p → p ≤ 975) →
        (∀ s, lastIndexOfFrom ['.', ' '] r MAX_LENGTH = some s → s ≤ 1365) →
        (∀ lb, lastIndexOfFrom ['\n'] r MAX_LENGTH = some lb → lb ≤ 1365) →
        chooseSplit r = MAX_LENGTH)) := by
  refine ⟨splitParts_chunk_le text, splitParts_reconstructs text, ?_, chooseSplit_preference⟩
  intro hgt m hm
  exact renderedAux_marker _ hgt (splitParts text) 0 m hm

/-- Witness for C6 as amended at a 1951-character text. -/
theorem C6_segmentation_amended_witness :
    MAX_LENGTH < (List.replicate 1951 'a').length ∧
    ((∀ p ∈ splitParts (List.replicate 1951 'a'), p.length ≤ MAX_LENGTH + 1) ∧
      reconstructs (splitParts (List.replicate 1951 'a')) (List.replicate 1951 'a') ∧
      (1 < (splitParts (List.replicate 1951 'a')).length →
        ∀ m ∈ renderedParts (splitParts (List.replicate 1951 'a')),
          ∃ j p, p ∈ splitParts (List.replicate 1951 'a') ∧
            m = partMarker j (splitParts (List.replicate 1951 'a')).length ++ p) ∧
      ((∀ (r : List Char) (p : Nat),
          lastIndexOfFrom ['\n', '\n'] r MAX_LENGTH = some p → 975 < p →
          chooseSplit r = p) ∧
        (∀ (r : List Char) (s : Nat),
          (∀ p, lastIndexOfFrom ['\n', '\n'] r MAX_LENGTH = some p → p ≤ 975) →
          lastIndexOfFrom ['.', ' '] r MAX_LENGTH = some s → 1365 < s →
          chooseSplit r = s + 1) ∧
        (∀ (r : List Char) (lb : Nat),
          (∀ p, lastIndexOfFrom ['\n', '\n'] r MAX_LENGTH = some p → p ≤ 975) →
          (∀ s, lastIndexOfFrom ['.', ' '] r MAX_LENGTH = some s → s ≤ 1365) →
          lastIndexOfFrom ['\n'] r MAX_LENGTH = some lb → 1365 < lb →
          chooseSplit r = lb) ∧
        (∀ (r : List Char),
          (∀ p, lastIndexOfFrom ['\n', '\n'] r MAX_LENGTH = some p → p ≤ 975) →
          (∀ s, lastIndexOfFrom ['.', ' '] r MAX_LENGTH = some s → s ≤ 1365) →
          (∀ lb, lastIndexOfFrom ['\n'] r MAX_LENGTH = some lb → lb ≤ 1365) →
          chooseSplit r = MAX_LENGTH))) :=
  ⟨by rw [List.length_replicate]; decide,
    C6_segmentation_amended (List.replicate 1951 'a') (by rw [List.length_replicate]; decide)⟩

/-- The scan `lastIndexOfAux` ignores positions beyond the from-index. -/
theorem lastIndexOfAux_out_of_range (pat : List Char) (f : Nat) :
    ∀ (l : List Char) (i : Nat) (best : Option Nat), f < i →
      lastIndexOfAux pat f l i best = best
  | [], _, _, _ => rfl
  | c :: cs, i, best, h => by
    simp only [lastIndexOfAux]
    rw [if_neg (by
      simp only [Bool.and_eq_true, decide_eq_true_eq]
      rintro ⟨h1, _⟩
      omega)]
    exact lastIndexOfAux_out_of_range pat f cs (i + 1) best (by omega)

/-- A replicate prefix whose character differs from the pattern head holds
no occurrence, so the scan skips over it. -/
theorem lastIndexOfAux_skip_replicate (p : Char) (ps : List Char) (f : Nat) (a : Char)
    (hpa : (p == a) = false) :
    ∀ (n : Nat) (rest : List Char) (i : Nat) (best : Option Nat),
      lastIndexOfAux (p :: ps) f (List.replicate n a ++ rest) i best =
      lastIndexOfAux (p :: ps) f rest (i + n) best
  | 0, rest, i, best => by simp [List.replicate]
  | n + 1, rest, i, best => by
    rw [List.replicate_succ, List.cons_append]
    simp only [lastIndexOfAux]
    have hsw : startsWithL (p :: ps) (a :: (List.replicate n a ++ rest)) = false := by
      simp only [startsWithL, hpa, Bool.false_and]
    rw [hsw]
    simp only [Bool.and_false, Bool.false_eq_true, if_false]
    rw [lastIndexOfAux_skip_replicate p ps f a hpa n rest (i + 1) best,
      show i + 1 + n = i + (n + 1) by omega]

theorem c6text_length : c6text.length = 1962 := by
  unfold c6text
  rw [List.length_append, List.length_append, List.length_replicate, List.length_replicate]
  decide

theorem c6text_paragraph : lastIndexOfFrom ['\n', '\n'] c6text MAX_LENGTH = none := by
  unfold c6text lastIndexOfFrom
  rw [lastIndexOfAux_skip_replicate '\n' ['\n'] MAX_LENGTH 'a' (by decide)]
  decide

theorem c6text_sentence : lastIndexOfFrom ['.', ' '] c6text MAX_LENGTH = some 1950 := by
  unfold c6text lastIndexOfFrom
  rw [lastIndexOfAux_skip_replicate '.' [' '] MAX_LENGTH 'a' (by decide)]
  decide

theorem c6text_chooseSplit : chooseSplit c6text = 1951 := by
  unfold chooseSplit
  rw [c6text_paragraph]
  unfold sentenceOr
  rw [c6text_sentence]
  dsimp only
  rw [if_pos (by omega)]

theorem dropWhile_eq_self_of (p : Char → Bool) :
    ∀ (l : List Char), (∀ c ∈ l, p c = false) → l.dropWhile p = l
  | [], _ => rfl
  | c :: cs, h => by
    rw [List.dropWhile_cons, if_neg (by simp [h c (List.mem_cons_self c cs)])]

/-- Trimming a list with no whitespace characters is the identity. -/
theorem jsTrimL_no_ws (l : List Char) (h : ∀ c ∈ l, wsChar c = false) : jsTrimL l = l := by
  unfold jsTrimL
  rw [dropWhile_eq_self_of wsChar l h,
    dropWhile_eq_self_of wsChar l.reverse (fun c hc => h c (List.mem_reverse.mp hc)),
    List.reverse_reverse]

theorem c6text_first_chunk :
    jsTrimL (c6text.take (chooseSplit c6text)) = List.replicate 1950 'a' ++ ['.'] := by
  rw [c6text_chooseSplit]
  unfold c6text
  rw [List.take_append_eq_append_take,
    List.take_of_length_le (by rw [List.length_replicate]; decide)]
  simp only [List.length_replicate]
  rw [show (1951 - 1950 : Nat) = 1 from rfl,
    show (['.', ' '] ++ List.replicate 10 'b').take 1 = ['.'] from by decide]
  refine jsTrimL_no_ws _ ?_
  intro c hc
  rcases List.mem_append.mp hc with hc' | hc'
  · rw [List.eq_of_mem_replicate hc']
    decide
  · rcases List.mem_singleton.mp hc' with rfl
    decide

/-- Counterexample to C6 as stated: on `c6text` the sentence-terminator
branch chooses split point 1951, and the resulting first chunk has 1951
characters, exceeding the limit of 1950. -/
theorem C6_chunk_bound_counterexample :
    MAX_LENGTH < c6text.length ∧
    ∃ p ∈ splitParts c6text, MAX_LENGTH < p.length := by
  have hlen := c6text_length
  have hne : c6text ≠ [] := by
    intro h0
    rw [h0] at hlen
    cases hlen
  constructor
  · rw [hlen]
    decide
  · refine ⟨jsTrimL (c6text.take (chooseSplit c6text)), ?_, ?_⟩
    · rw [splitParts_eq_cons c6text hne (by rw [hlen]; decide)]
      exact List.mem_cons_self _ _
    · rw [c6text_first_chunk, List.length_append, List.length_replicate]
      decide

end DiscordMCP
